import Mathlib

/-!
# Calculator reducer, evaluator and formatter (`src/App.jsx`)

A shallow embedding of the calculator core of `src/App.jsx`: the `reducer`
state machine, the `evaluate` and `formatOperand` functions and the
JavaScript built-ins they call (`parseFloat`, `isNaN`, the arithmetic
operators on Number values, `Number.prototype.toString`, `String.prototype`
`includes`, `slice` and `split`, and `Intl.NumberFormat.prototype.format`),
followed by the properties proved of them.

Modelling decisions.

* A JavaScript property that may hold `undefined`, `null` or a value is a
  `Field`; `x == null` is `Field.isNullish`.
* Strings are Lean `String`s.  All operand texts the reducer can build are
  ASCII, where JavaScript's UTF-16 `length` and `slice` agree with the
  character-wise operations used here.
* A Number is an IEEE-754 binary64 value, `JSNumber`; every arithmetic result
  is the exact rational result rounded to nearest, ties to even.
* `parseFloat` converts the longest prefix that is a `StrDecimalLiteral` and
  rounds its exact decimal value (for literals of more than 20 significant
  digits ECMA-262 leaves the last bit to the implementation; the model
  rounds exactly, as the common engines do).
* `Number.prototype.toString` produces the shortest decimal digits that
  convert back to the value, the nearest such digits when several exist,
  laid out as ECMA-262 `Number::toString` prescribes.
* `INTEGER_FORMATTER.format` follows ECMA-402 (2023) for the locale `en-US`
  with `maximumFractionDigits: 0`: a string argument is read as a
  `StringNumericLiteral` and kept at its exact decimal value, unless that
  value converts to the Number `Infinity` or `0`; the magnitude is rounded to
  an integer, halves away from zero, and its digits are grouped in threes
  with `,`.  Engines older than that edition convert the string to a Number
  first, which is exact only below `2^53`.
* A thrown `TypeError` is `Except.error JSError.typeError`.
-/

namespace Calculator

/-! ## Number values -/

/-- A binary64 value.  `fin neg m e` is `(-1)^neg * m * 2^e`, stored the way
binary64 stores it: `2^52 ≤ m < 2^53` with `-1074 ≤ e ≤ 971` (normal), or
`m < 2^52` with `e = -1074` (subnormal; `m = 0` is a signed zero). -/
inductive JSNumber where
  | nan
  | inf (neg : Bool)
  | fin (neg : Bool) (m : Nat) (e : Int)
deriving DecidableEq, Repr

/-- The fraction `n / (d * 2^e)` as a pair numerator, denominator. -/
def scale (n d : Nat) (e : Int) : Nat × Nat :=
  if 0 ≤ e then (n, d * 2 ^ e.toNat) else (n * 2 ^ (-e).toNat, d)

/-- Halving `n` until it is below 2, for at most `fuel` steps, counting the
steps. -/
def log2Fuel : Nat → Nat → Nat
  | 0, _ => 0
  | fuel + 1, n => if n < 2 then 0 else log2Fuel fuel (n / 2) + 1

/-- The natural number `k` with `2^k ≤ n < 2^(k+1)`, for positive `n`. -/
def floorLog2 (n : Nat) : Nat := log2Fuel n n

/-- The integer `E` with `2^E ≤ n / d < 2^(E+1)`, for positive `n` and `d`. -/
def ilog2Ratio (n d : Nat) : Int :=
  let g : Int := (floorLog2 n : Int) - (floorLog2 d : Int)
  let p := scale n d g
  if p.2 ≤ p.1 then g else g - 1

/-- Round half to even: the quotient `N / D` rounded to the nearest integer. -/
def roundHalfEven (N D : Nat) : Nat :=
  let q := N / D
  let r := N % D
  if 2 * r < D then q
  else if D < 2 * r then q + 1
  else if q % 2 = 0 then q else q + 1

/-- The binary64 value nearest to `(-1)^neg * n / d` (ties to even), for
`d > 0`; values of magnitude `2^1024` or more after rounding overflow to an
infinity. -/
def roundRatio (neg : Bool) (n d : Nat) : JSNumber :=
  if n = 0 then .fin neg 0 (-1074)
  else
    let e : Int := max (ilog2Ratio n d - 52) (-1074)
    let p := scale n d e
    let q := roundHalfEven p.1 p.2
    let m := if q = 2 ^ 53 then 2 ^ 52 else q
    let e1 := if q = 2 ^ 53 then e + 1 else e
    if 971 < e1 then .inf neg else .fin neg m e1

/-- The exact value `m * 2^e` as a fraction. -/
def ratio (m : Nat) (e : Int) : Nat × Nat := scale m 1 (-e)

/-- The signed integer `(-1)^neg * n`. -/
def signed (neg : Bool) (n : Nat) : Int := if neg then -(n : Int) else (n : Int)

namespace JSNumber

/-- Unary minus. -/
def neg : JSNumber → JSNumber
  | nan => nan
  | inf s => inf (!s)
  | fin s m e => fin (!s) m e

/-- The `+` operator on Numbers. -/
def add : JSNumber → JSNumber → JSNumber
  | nan, _ => nan
  | _, nan => nan
  | inf a, inf b => if a = b then inf a else nan
  | inf a, fin _ _ _ => inf a
  | fin _ _ _, inf b => inf b
  | fin s1 m1 e1, fin s2 m2 e2 =>
    let x := ratio m1 e1
    let y := ratio m2 e2
    let z : Int := signed s1 (x.1 * y.2) + signed s2 (y.1 * x.2)
    if z = 0 then fin (s1 && s2) 0 (-1074)
    else roundRatio (decide (z < 0)) z.natAbs (x.2 * y.2)

/-- The `-` operator on Numbers: `x - y` is `x + (-y)`. -/
def sub (x y : JSNumber) : JSNumber := add x (neg y)

/-- The `*` operator on Numbers. -/
def mul : JSNumber → JSNumber → JSNumber
  | nan, _ => nan
  | _, nan => nan
  | inf a, inf b => inf (xor a b)
  | inf a, fin s m _ => if m = 0 then nan else inf (xor a s)
  | fin s m _, inf b => if m = 0 then nan else inf (xor s b)
  | fin s1 m1 e1, fin s2 m2 e2 =>
    let x := ratio m1 e1
    let y := ratio m2 e2
    roundRatio (xor s1 s2) (x.1 * y.1) (x.2 * y.2)

/-- The `/` operator on Numbers. -/
def div : JSNumber → JSNumber → JSNumber
  | nan, _ => nan
  | _, nan => nan
  | inf _, inf _ => nan
  | inf a, fin s _ _ => inf (xor a s)
  | fin s _ _, inf b => fin (xor s b) 0 (-1074)
  | fin s1 m1 e1, fin s2 m2 e2 =>
    if m2 = 0 then (if m1 = 0 then nan else inf (xor s1 s2))
    else
      let x := ratio m1 e1
      let y := ratio m2 e2
      roundRatio (xor s1 s2) (x.1 * y.2) (x.2 * y.1)

end JSNumber

/-- The global `isNaN`, applied to a Number. -/
def isNaN : JSNumber → Bool
  | .nan => true
  | _ => false

/-! ## `parseFloat` -/

/-- The white space and line terminator code points that `parseFloat` skips
at the start of its input. -/
def isStrWhiteSpaceChar (c : Char) : Bool :=
  let v := c.toNat
  v = 0x09 || v = 0x0A || v = 0x0B || v = 0x0C || v = 0x0D || v = 0x20 ||
  v = 0xA0 || v = 0x1680 || (0x2000 ≤ v && v ≤ 0x200A) || v = 0x2028 ||
  v = 0x2029 || v = 0x202F || v = 0x205F || v = 0x3000 || v = 0xFEFF

/-- The natural number written by a list of decimal digit characters. -/
def digitsValue (ds : List Char) : Nat :=
  ds.foldl (fun acc c => 10 * acc + (c.toNat - 48)) 0

/-- The Number nearest to `(-1)^neg * n * 10^x`. -/
def decimalValue (neg : Bool) (n : Nat) (x : Int) : JSNumber :=
  if 0 ≤ x then roundRatio neg (n * 10 ^ x.toNat) 1
  else roundRatio neg n (10 ^ (-x).toNat)

/-- The value of the longest `ExponentPart` (`e` or `E`, an optional sign, at
least one digit) that starts the text; `0` when there is none. -/
def exponentPart : List Char → Int
  | c :: t =>
    if c = 'e' ∨ c = 'E' then
      match t with
      | '+' :: u => (digitsValue (u.takeWhile Char.isDigit) : Int)
      | '-' :: u => -(digitsValue (u.takeWhile Char.isDigit) : Int)
      | _ => (digitsValue (t.takeWhile Char.isDigit) : Int)
    else 0
  | [] => 0

/-- The value of the longest prefix that is a `StrUnsignedDecimalLiteral`
(`Infinity`, `digits`, `digits.`, `digits.digits` or `.digits`, each of the
last four with an optional exponent part), or NaN when no prefix is one. -/
def parseUnsigned (neg : Bool) (cs : List Char) : JSNumber :=
  if "Infinity".data.isPrefixOf cs then .inf neg
  else
    let ip := cs.takeWhile Char.isDigit
    let r1 := cs.dropWhile Char.isDigit
    let fp := match r1 with
      | '.' :: t => t.takeWhile Char.isDigit
      | _ => []
    let r2 := match r1 with
      | '.' :: t => t.dropWhile Char.isDigit
      | _ => r1
    if ip = [] ∧ fp = [] then .nan
    else decimalValue neg (digitsValue (ip ++ fp)) (exponentPart r2 - (fp.length : Int))

/-- The global `parseFloat` on a string: leading white space is skipped, then
the longest prefix that is a `StrDecimalLiteral` is converted. -/
def parseFloatString (s : String) : JSNumber :=
  match s.data.dropWhile isStrWhiteSpaceChar with
  | '+' :: t => parseUnsigned false t
  | '-' :: t => parseUnsigned true t
  | cs => parseUnsigned false cs

/-! ## `Number.prototype.toString` -/

/-- The least `j` at or after the starting value with `D ≤ N * 10^j`, searched
upwards for at most `fuel` steps. -/
def negExp10 (N D : Nat) : Nat → Nat → Nat
  | 0, j => j
  | fuel + 1, j => if D ≤ N * 10 ^ j then j else negExp10 N D fuel (j + 1)

/-- The integer `n` with `10^(n-1) ≤ N / D < 10^n`, for positive `N`, `D`. -/
def decimalExponent (N D : Nat) : Int :=
  if D ≤ N then ((Nat.toDigits 10 (N / D)).length : Int)
  else 1 - (negExp10 N D D 0 : Int)

/-- The fraction `N / D * 10^x` as a pair numerator, denominator. -/
def scale10 (N D : Nat) (x : Int) : Nat × Nat :=
  if 0 ≤ x then (N * 10 ^ x.toNat, D) else (N, D * 10 ^ (-x).toNat)

/-- Among the `k`-digit decimals `s * 10^(n-k)` that convert to the Number
`x = N / D`, the `s` nearest to `x` (the even one on a tie), if any. -/
def candidate (x : JSNumber) (N D : Nat) (n : Int) (k : Nat) : Option Nat :=
  let p := scale10 N D ((k : Int) - n)
  let lo := p.1 / p.2
  let r := p.1 % p.2
  let okLo := decide (decimalValue false lo (n - (k : Int)) = x)
  let okHi := decide (decimalValue false (lo + 1) (n - (k : Int)) = x)
  if okLo && okHi then
    (if 2 * r < p.2 then some lo
     else if p.2 < 2 * r then some (lo + 1)
     else if lo % 2 = 0 then some lo else some (lo + 1))
  else if okLo then some lo
  else if okHi then some (lo + 1)
  else none

/-- The least `k ≥ k0` with a `k`-digit decimal converting to `x`, and its
digits `s`. -/
def shortestDigits (x : JSNumber) (N D : Nat) (n : Int) : Nat → Nat → Nat × Nat
  | 0, k => ((scale10 N D ((k : Int) - n)).1 / (scale10 N D ((k : Int) - n)).2, k)
  | fuel + 1, k =>
    match candidate x N D n k with
    | some s => (s, k)
    | none => shortestDigits x N D n fuel (k + 1)

/-- The text of a positive finite Number given `n`, `k` and the `k` digits
`ds` of `s`, where the value is `s * 10^(n-k)`. -/
def formatDigits (ds : List Char) (k : Nat) (n : Int) : List Char :=
  if -5 ≤ n ∧ n ≤ 21 then
    if (k : Int) ≤ n then ds ++ List.replicate (n - (k : Int)).toNat '0'
    else if 0 < n then ds.take n.toNat ++ '.' :: ds.drop n.toNat
    else '0' :: '.' :: (List.replicate (-n).toNat '0' ++ ds)
  else
    let x := n - 1
    let sign := if 0 ≤ x then '+' else '-'
    let mant := if k = 1 then ds else ds.take 1 ++ '.' :: ds.drop 1
    mant ++ 'e' :: sign :: Nat.toDigits 10 x.natAbs

/-- The text of the positive finite Number `fin false m e`. -/
def positiveToString (m : Nat) (e : Int) : List Char :=
  let p := ratio m e
  let n0 := decimalExponent p.1 p.2
  let sk := shortestDigits (.fin false m e) p.1 p.2 n0 17 1
  let s := if sk.1 = 10 ^ sk.2 then 10 ^ (sk.2 - 1) else sk.1
  let n := if sk.1 = 10 ^ sk.2 then n0 + 1 else n0
  formatDigits (Nat.toDigits 10 s) sk.2 n

/-- The method `Number.prototype.toString` with radix 10. -/
def JSNumber.toString : JSNumber → String
  | .nan => "NaN"
  | .inf neg => if neg then "-Infinity" else "Infinity"
  | .fin neg m e =>
    if m = 0 then "0"
    else if neg then String.mk ('-' :: positiveToString m e)
    else String.mk (positiveToString m e)

/-! ## State, actions and JavaScript values -/

/-- A JavaScript property value: `undefined` (also a property that is not
there), `null`, or a value. -/
inductive Field (α : Type) where
  | undefined
  | null
  | val (a : α)
deriving DecidableEq, Repr

/-- The test `x == null`, true of `undefined` and of `null`. -/
def Field.isNullish {α : Type} : Field α → Bool
  | .val _ => false
  | _ => true

/-- Truthiness of the `overwrite` property. -/
def Field.truthy : Field Bool → Bool
  | .val b => b
  | _ => false

/-- The state object of the reducer.  The initial state `{}` has every
property `undefined`. -/
structure CalculatorState where
  currentOperand : Field String := .undefined
  previousOperand : Field String := .undefined
  operation : Field String := .undefined
  overwrite : Field Bool := .undefined
deriving DecidableEq, Repr

/-- The action objects dispatched to the reducer, by `type` with their
`payload`. -/
inductive Action where
  | ADD_DIGIT (digit : String)
  | CHOOSE_OPERATION (operation : String)
  | CLEAR
  | DELETE_DIGIT
  | EVALUATE
deriving DecidableEq, Repr

/-- Exceptions thrown by the JavaScript runtime. -/
inductive JSError where
  | typeError
deriving DecidableEq, Repr

deriving instance DecidableEq for Except

/-- The method call `x.includes(t)`: a `TypeError` when `x` is `undefined` or
`null`, otherwise whether `t` occurs in the string `x`. -/
def includes (x : Field String) (t : String) : Except JSError Bool :=
  match x with
  | .val s => .ok (decide (t.data <:+: s.data))
  | _ => .error .typeError

/-- The expression `x || ""` for a string property `x`: the empty string
when `x` is `undefined`, `null` or the (falsy) empty string. -/
def orEmpty : Field String → String
  | .val s => if s = "" then "" else s
  | _ => ""

/-- The method call `s.slice(0, -1)`. -/
def sliceInit (s : String) : String := String.mk s.data.dropLast

/-- The global `parseFloat`: its argument is first converted to a string. -/
def parseFloat : Field String → JSNumber
  | .undefined => parseFloatString "undefined"
  | .null => parseFloatString "null"
  | .val s => parseFloatString s

/-! ## `evaluate` and `reducer` -/

/-- The function `evaluate` of `App.jsx`. -/
def evaluate (state : CalculatorState) : String :=
  let prev := parseFloat state.previousOperand
  let current := parseFloat state.currentOperand
  if isNaN prev || isNaN current then ""
  else if state.operation = .val "+" then (prev.add current).toString
  else if state.operation = .val "-" then (prev.sub current).toString
  else if state.operation = .val "*" then (prev.mul current).toString
  else if state.operation = .val "÷" then (prev.div current).toString
  else ""

/-- The function `reducer` of `App.jsx`. -/
def reducer (state : CalculatorState) : Action → Except JSError CalculatorState
  | .ADD_DIGIT digit =>
    if state.overwrite.truthy then
      .ok { state with currentOperand := .val digit, overwrite := .val false }
    else if digit = "0" ∧ state.currentOperand = .val "0" then .ok state
    else
      (if digit = "." then includes state.currentOperand "." else .ok false) >>= fun dup =>
        if dup then .ok state
        else .ok { state with currentOperand := .val (orEmpty state.currentOperand ++ digit) }
  | .CHOOSE_OPERATION operation =>
    if state.currentOperand.isNullish && state.previousOperand.isNullish then .ok state
    else if state.currentOperand.isNullish then
      .ok { state with operation := .val operation }
    else if state.previousOperand.isNullish then
      .ok { state with
              operation := .val operation
              previousOperand := state.currentOperand
              currentOperand := .null }
    else
      .ok { state with
              previousOperand := .val (evaluate state)
              operation := .val operation
              currentOperand := .null }
  | .CLEAR => .ok {}
  | .DELETE_DIGIT =>
    if state.overwrite.truthy then
      .ok { state with overwrite := .val false, currentOperand := .null }
    else
      match state.currentOperand with
      | .val s =>
        if s.length = 1 then .ok { state with currentOperand := .null }
        else .ok { state with currentOperand := .val (sliceInit s) }
      | _ => .ok state
  | .EVALUATE =>
    if state.operation.isNullish || state.currentOperand.isNullish
        || state.previousOperand.isNullish then .ok state
    else
      .ok { state with
              overwrite := .val true
              previousOperand := .null
              operation := .null
              currentOperand := .val (evaluate state) }

/-- The initial state passed to `useReducer`: the empty object. -/
def initialState : CalculatorState := {}

/-- The reducer applied to a sequence of actions, stopping at the first
exception. -/
def run (state : CalculatorState) : List Action → Except JSError CalculatorState
  | [] => .ok state
  | a :: as => reducer state a >>= fun s => run s as

/-! ## `formatOperand` -/

/-- The value `Intl.NumberFormat.prototype.format` works on (ECMA-402
`ToIntlMathematicalValue`): not-a-number, an infinity, or the exact fraction
`(-1)^neg * n / d`, where `neg` with `n = 0` is negative zero. -/
inductive IntlValue where
  | notANumber
  | infinity (neg : Bool)
  | finite (neg : Bool) (n d : Nat)
deriving DecidableEq, Repr

/-- The text without white space and line terminators at either end. -/
def trimWhiteSpace (cs : List Char) : List Char :=
  ((cs.dropWhile isStrWhiteSpaceChar).reverse.dropWhile isStrWhiteSpaceChar).reverse

/-- The value of a hexadecimal digit character. -/
def hexDigitValue (c : Char) : Option Nat :=
  if c.isDigit then some (c.toNat - 48)
  else if 'a'.toNat ≤ c.toNat ∧ c.toNat ≤ 'f'.toNat then some (c.toNat - 87)
  else if 'A'.toNat ≤ c.toNat ∧ c.toNat ≤ 'F'.toNat then some (c.toNat - 55)
  else none

/-- The number written by the digits in the given radix, started from an
accumulated value; `none` when a character is not a digit of the radix. -/
def radixValue (radix : Nat) : Nat → List Char → Option Nat
  | acc, [] => some acc
  | acc, c :: cs =>
    match hexDigitValue c with
    | some v => if v < radix then radixValue radix (radix * acc + v) cs else none
    | none => none

/-- The value of a `NonDecimalIntegerLiteral` (`0x`, `0o`, `0b` and at least
one digit), if the text is one. -/
def nonDecimalLiteral : List Char → Option Nat
  | '0' :: p :: d :: ds =>
    if p = 'x' ∨ p = 'X' then radixValue 16 0 (d :: ds)
    else if p = 'o' ∨ p = 'O' then radixValue 8 0 (d :: ds)
    else if p = 'b' ∨ p = 'B' then radixValue 2 0 (d :: ds)
    else none
  | _ => none

/-- The number written by a non-empty text of decimal digits. -/
def decimalDigits (cs : List Char) : Option Nat :=
  if cs ≠ [] ∧ cs.all Char.isDigit then some (digitsValue cs) else none

/-- The exponent written by what follows the digits of a decimal literal:
nothing (exponent `0`) or a whole `ExponentPart`; `none` for anything else. -/
def exponentWhole : List Char → Option Int
  | [] => some 0
  | c :: t =>
    if c = 'e' ∨ c = 'E' then
      match t with
      | '+' :: u => (decimalDigits u).map fun v => (v : Int)
      | '-' :: u => (decimalDigits u).map fun v => -(v : Int)
      | _ => (decimalDigits t).map fun v => (v : Int)
    else none

/-- The exact value `n * 10^x` as an `IntlValue`. -/
def IntlValue.decimal (n : Nat) (x : Int) : IntlValue :=
  if 0 ≤ x then .finite false (n * 10 ^ x.toNat) 1 else .finite false n (10 ^ (-x).toNat)

/-- The value of a text that is, as a whole, a `StrUnsignedDecimalLiteral`. -/
def strUnsignedDecimal (cs : List Char) : Option IntlValue :=
  if cs = "Infinity".data then some (.infinity false)
  else
    let ip := cs.takeWhile Char.isDigit
    let r1 := cs.dropWhile Char.isDigit
    let fp := match r1 with
      | '.' :: t => t.takeWhile Char.isDigit
      | _ => []
    let r2 := match r1 with
      | '.' :: t => t.dropWhile Char.isDigit
      | _ => r1
    if ip = [] ∧ fp = [] then none
    else (exponentWhole r2).map fun x =>
      IntlValue.decimal (digitsValue (ip ++ fp)) (x - (fp.length : Int))

/-- The value with the opposite sign. -/
def IntlValue.negate : IntlValue → IntlValue
  | .notANumber => .notANumber
  | .infinity neg => .infinity (!neg)
  | .finite neg n d => .finite (!neg) n d

/-- The value of a text as a `StringNumericLiteral` (ECMA-402 `StringIntlMV`):
white space alone is `0`, a text that is no numeric literal is not-a-number. -/
def stringIntlMV (s : String) : IntlValue :=
  let cs := trimWhiteSpace s.data
  if cs = [] then .finite false 0 1
  else
    match nonDecimalLiteral cs with
    | some n => .finite false n 1
    | none =>
      match cs with
      | '+' :: t => (strUnsignedDecimal t).getD .notANumber
      | '-' :: t => ((strUnsignedDecimal t).map IntlValue.negate).getD .notANumber
      | _ => (strUnsignedDecimal cs).getD .notANumber

/-- ECMA-402 `ToIntlMathematicalValue` on a string: the exact value of the
literal, except that a magnitude that converts to the Number `Infinity` is an
infinity and one that converts to the Number `0` is a zero. -/
def toIntlMathematicalValue (s : String) : IntlValue :=
  match stringIntlMV s with
  | .finite neg n d =>
    match roundRatio false n d with
    | .inf _ => .infinity neg
    | .fin _ m _ => if m = 0 then .finite neg 0 1 else .finite neg n d
    | .nan => .finite neg n d
  | v => v

/-- Grouping of the integer digits for the locale `en-US`: a `,` before
every digit that is followed by a multiple of three further digits. -/
def groupDigits : List Char → List Char
  | [] => []
  | c :: rest =>
    if rest ≠ [] ∧ rest.length % 3 = 0 then c :: ',' :: groupDigits rest
    else c :: groupDigits rest

/-- The method `format` of `Intl.NumberFormat("en-us", {maximumFractionDigits:
0})` on a value: the magnitude rounded to an integer, halves away from zero,
written with its sign and grouped digits. -/
def IntlValue.format : IntlValue → String
  | .notANumber => "NaN"
  | .infinity neg => if neg then "-∞" else "∞"
  | .finite neg n d =>
    let ds := groupDigits (Nat.toDigits 10 ((2 * n + d) / (2 * d)))
    if neg then String.mk ('-' :: ds) else String.mk ds

/-- The constant `INTEGER_FORMATTER` of `App.jsx`, as its `format` method on
a string argument. -/
def INTEGER_FORMATTER (integer : String) : String :=
  (toIntlMathematicalValue integer).format

/-- The method call `s.split(".")`, as its first piece and the list of the
pieces after it. -/
def splitDot : List Char → List Char × List (List Char)
  | [] => ([], [])
  | c :: cs =>
    if c = '.' then ([], (splitDot cs).1 :: (splitDot cs).2)
    else (c :: (splitDot cs).1, (splitDot cs).2)

/-- The function `formatOperand` of `App.jsx`. -/
def formatOperand (operand : Field String) : Field String :=
  match operand with
  | .val s =>
    let integer := String.mk (splitDot s.data).1
    match (splitDot s.data).2 with
    | [] => .val (INTEGER_FORMATTER integer)
    | decimal :: _ => .val (INTEGER_FORMATTER integer ++ "." ++ String.mk decimal)
  | _ => .undefined

/-- The digits with a `,` after every third digit, for digits given last
digit first. -/
def separateReversed : List Char → List Char
  | a :: b :: c :: rest =>
    match rest with
    | [] => [a, b, c]
    | _ :: _ => a :: b :: c :: ',' :: separateReversed rest
  | l => l

/-- The digits with a `,` between every group of three digits counted from
the right. -/
def thousandsGrouped (ds : List Char) : List Char :=
  (separateReversed ds.reverse).reverse

/-! ## Vocabulary of the specification -/

/-- The digit payloads the calculator's buttons dispatch: `"0"` to `"9"` and
`"."`. -/
def isDigitPayload (d : String) : Prop :=
  d ∈ ["0", "1", "2", "3", "4", "5", "6", "7", "8", "9", "."]

/-- The four operation symbols. -/
def isOperationSymbol (op : String) : Prop := op ∈ ["+", "-", "*", "÷"]

/-- The actions of the specification: digits `"0"`-`"9"` or `"."`, operations
from the four symbols, clear, delete and evaluate. -/
def validAction : Action → Prop
  | .ADD_DIGIT d => isDigitPayload d
  | .CHOOSE_OPERATION op => isOperationSymbol op
  | _ => True

/-- States reachable from the initial state by reducer transitions that
return a state. -/
inductive Reachable : CalculatorState → Prop where
  | init : Reachable initialState
  | step {s s1 : CalculatorState} {a : Action} :
      Reachable s → validAction a → reducer s a = .ok s1 → Reachable s1

/-- Text made only of the digits `0`-`9` and at most one `.`. -/
def digitsAndOneDot (t : String) : Prop :=
  (∀ c ∈ t.data, c.isDigit = true ∨ c = '.') ∧ t.data.count '.' ≤ 1

instance (d : String) : Decidable (isDigitPayload d) := by
  unfold isDigitPayload; infer_instance

instance (op : String) : Decidable (isOperationSymbol op) := by
  unfold isOperationSymbol; infer_instance

instance (t : String) : Decidable (digitsAndOneDot t) := by
  unfold digitsAndOneDot; infer_instance

instance : DecidablePred validAction := fun a =>
  match a with
  | .ADD_DIGIT d => inferInstanceAs (Decidable (isDigitPayload d))
  | .CHOOSE_OPERATION op => inferInstanceAs (Decidable (isOperationSymbol op))
  | .CLEAR => isTrue trivial
  | .DELETE_DIGIT => isTrue trivial
  | .EVALUATE => isTrue trivial

/-- The Number is positive: `+Infinity` or a finite non-zero value with
positive sign. -/
def JSNumber.isPositive : JSNumber → Bool
  | .inf neg => !neg
  | .fin neg m _ => !neg && decide (m ≠ 0)
  | .nan => false

/-- The Number is a zero, `+0` or `-0`. -/
def JSNumber.isZero : JSNumber → Bool
  | .fin _ m _ => decide (m = 0)
  | _ => false

/-- The Number is a zero with the given sign (`true` for `-0`). -/
def JSNumber.isSignedZero (sign : Bool) : JSNumber → Bool
  | .fin neg m _ => decide (neg = sign) && decide (m = 0)
  | _ => false

/-- The text typed so far: a non-empty text of digits with at most one `.`. -/
def typedText (t : String) : Prop := t ≠ "" ∧ digitsAndOneDot t

/-- The binary64 value that holds the natural number `q < 2^53` exactly, with
sign `neg`. -/
def exactNat (neg : Bool) (q : Nat) : JSNumber :=
  if q = 0 then .fin neg 0 (-1074)
  else .fin neg (q * 2 ^ (52 - floorLog2 q)) ((floorLog2 q : Int) - 52)

/-- The text is a decimal numeral of the integer `a`: an optional `-` and a
non-empty string of digits (leading zeros allowed) whose value is `|a|`. -/
def isIntNumeral (t : String) (a : Int) : Prop :=
  ∃ ds : List Char, ds ≠ [] ∧ (∀ c ∈ ds, c.isDigit = true) ∧
    ((t.data = ds ∧ a = (digitsValue ds : Int)) ∨
      (t.data = '-' :: ds ∧ a = -(digitsValue ds : Int)))

/-- A non-empty string of digits without leading zeros (`"0"` itself
included). -/
def isIntegerPart (ip : List Char) : Prop :=
  ip ≠ [] ∧ (∀ c ∈ ip, c.isDigit = true) ∧ (ip = ['0'] ∨ ip.head? ≠ some '0')

instance (ip : List Char) : Decidable (isIntegerPart ip) := by
  unfold isIntegerPart; infer_instance

/-! ## The reducer, action by action -/

/-- A one-character needle occurs in a text exactly when the character is
among the characters of the text. -/
theorem singleton_infix_iff_mem (c : Char) (l : List Char) : [c] <:+: l ↔ c ∈ l := by
  constructor
  · rintro ⟨p, q, h⟩
    rw [← h]
    simp
  · intro h
    obtain ⟨p, q, h1⟩ := List.append_of_mem h
    exact ⟨p, q, by simp [h1]⟩

/-- The call `x.includes(".")` on a string property. -/
theorem includes_dot_val (t : String) :
    includes (.val t) "." = .ok (decide ('.' ∈ t.data)) := by
  have h : (".".data <:+: t.data) ↔ '.' ∈ t.data := singleton_infix_iff_mem '.' t.data
  simp only [includes, h]

/-- The call `x.includes(".")` on `undefined` or `null` throws. -/
theorem includes_nullish (x : Field String) (t : String) (h : x.isNullish = true) :
    includes x t = .error .typeError := by
  cases x <;> simp_all [includes, Field.isNullish]

/-- The expression `x || ""` is the text of a string property. -/
theorem orEmpty_val (t : String) : orEmpty (.val t) = t := by
  simp only [orEmpty]
  split_ifs with h
  · exact h.symm
  · rfl

/-- ADD_DIGIT without the overwrite flag, when no leading-zero or second-dot
rule applies and the digit is not a `"."` typed on an absent operand, appends
the digit to the current operand. -/
theorem reducer_addDigit_append (s : CalculatorState) (d : String)
    (ho : s.overwrite.truthy = false)
    (hz : ¬ (d = "0" ∧ s.currentOperand = .val "0"))
    (hdot : d = "." → ∃ t, s.currentOperand = .val t ∧ '.' ∉ t.data) :
    reducer s (.ADD_DIGIT d) =
      .ok { s with currentOperand := .val (orEmpty s.currentOperand ++ d) } := by
  simp only [reducer]
  rw [if_neg (by simp [ho]), if_neg hz]
  by_cases hd : d = "."
  · obtain ⟨t, ht, hnot⟩ := hdot hd
    rw [if_pos hd, ht, includes_dot_val]
    simp [hnot, bind, Except.bind]
  · rw [if_neg hd]
    simp [bind, Except.bind]

/-- C1 (defect): the initial state is reachable, `ADD_DIGIT(".")` is one of
the actions of the specification, and the reducer throws a `TypeError` on
them instead of returning a state. -/
theorem reducer_throws_on_initial_dot :
    Reachable initialState ∧ validAction (.ADD_DIGIT ".") ∧
      reducer initialState (.ADD_DIGIT ".") = .error .typeError :=
  ⟨Reachable.init, by show isDigitPayload "."; decide, by decide⟩

/-- C3 (defect): with the overwrite flag not set and the current operand
absent (`undefined` or `null`), `ADD_DIGIT(".")` throws a `TypeError`; it
does not return a state whose current operand is `"."`. -/
theorem reducer_addDigit_dot_absent_throws (s : CalculatorState)
    (ho : s.overwrite.truthy = false) (hc : s.currentOperand.isNullish = true) :
    reducer s (.ADD_DIGIT ".") = .error .typeError := by
  have hz : ¬ ("." = "0" ∧ s.currentOperand = .val "0") := fun h => absurd h.1 (by decide)
  simp only [reducer]
  rw [if_neg (by simp [ho]), if_neg hz, if_pos trivial, includes_nullish _ _ hc]
  rfl

/-- C3, at a concrete input: after `5` and `+` the current operand is `null`
and `ADD_DIGIT(".")` throws. -/
theorem reducer_addDigit_dot_absent_throws_witness :
    run initialState [.ADD_DIGIT "5", .CHOOSE_OPERATION "+"] =
        .ok { currentOperand := .null, previousOperand := .val "5", operation := .val "+" } ∧
      reducer { currentOperand := .null, previousOperand := .val "5", operation := .val "+" }
        (.ADD_DIGIT ".") = .error .typeError :=
  ⟨by decide, reducer_addDigit_dot_absent_throws _ (by decide) (by decide)⟩

/-- C4: when both operands are present, CHOOSE_OPERATION returns the state
with the previous operand replaced by `evaluate` of the old state (old
previous operand, current operand and pending operation), the operation set
to the new symbol and the current operand cleared; and from the initial state
`5`, `+`, `3`, `*` gives previous operand `"8"`, operation `"*"`, current
operand absent. -/
theorem reducer_chooseOperation_folds (s : CalculatorState) (op : String)
    (hc : s.currentOperand.isNullish = false) (hp : s.previousOperand.isNullish = false) :
    reducer s (.CHOOSE_OPERATION op) =
        .ok { s with
              previousOperand := .val (evaluate s)
              operation := .val op
              currentOperand := .null } ∧
      run initialState [.ADD_DIGIT "5", .CHOOSE_OPERATION "+", .ADD_DIGIT "3",
          .CHOOSE_OPERATION "*"] =
        .ok { currentOperand := .null, previousOperand := .val "8", operation := .val "*" } := by
  refine ⟨?_, by decide!⟩
  simp [reducer, hc, hp]

/-- C4, at the state reached by `5`, `+`, `3`. -/
theorem reducer_chooseOperation_folds_witness :
    reducer { currentOperand := .val "3", previousOperand := .val "5", operation := .val "+" }
        (.CHOOSE_OPERATION "*") =
      .ok { currentOperand := .null, previousOperand := .val "8", operation := .val "*" } := by
  have h := (reducer_chooseOperation_folds
    { currentOperand := .val "3", previousOperand := .val "5", operation := .val "+" } "*"
    (by decide) (by decide)).1
  have he : evaluate
      { currentOperand := .val "3", previousOperand := .val "5", operation := .val "+" } = "8" := by
    decide!
  rw [h, he]

/-- C5: on a state with operation and both operands present, EVALUATE
returns the state with the current operand set to `evaluate` of the old
state, previous operand and operation cleared and the overwrite flag true. -/
theorem reducer_evaluate_complete (s : CalculatorState)
    (hop : s.operation.isNullish = false) (hc : s.currentOperand.isNullish = false)
    (hp : s.previousOperand.isNullish = false) :
    reducer s .EVALUATE =
      .ok { currentOperand := .val (evaluate s)
            previousOperand := .null
            operation := .null
            overwrite := .val true } := by
  simp [reducer, hop, hc, hp]

/-- C5, at the state `8 * 2`. -/
theorem reducer_evaluate_complete_witness :
    reducer { currentOperand := .val "2", previousOperand := .val "8", operation := .val "*" }
        .EVALUATE =
      .ok { currentOperand := .val "16", previousOperand := .null, operation := .null,
            overwrite := .val true } := by
  have h := reducer_evaluate_complete
    { currentOperand := .val "2", previousOperand := .val "8", operation := .val "*" }
    (by decide) (by decide) (by decide)
  have he : evaluate
      { currentOperand := .val "2", previousOperand := .val "8", operation := .val "*" } = "16" := by
    decide!
  rw [h, he]

/-- C6: on a state with operation and both operands present, EVALUATE
followed by ADD_DIGIT(d) yields a state whose current operand is exactly `d`,
whose overwrite flag is false and whose previous operand and operation are
absent; and after `5 + 3 * 2`, EVALUATE gives current operand `"16"` with
overwrite true, then ADD_DIGIT("7") gives current operand `"7"`. -/
theorem reducer_evaluate_then_digit (s : CalculatorState) (d : String)
    (hop : s.operation.isNullish = false) (hc : s.currentOperand.isNullish = false)
    (hp : s.previousOperand.isNullish = false) :
    (reducer s .EVALUATE >>= fun s1 => reducer s1 (.ADD_DIGIT d)) =
        .ok { currentOperand := .val d
              previousOperand := .null
              operation := .null
              overwrite := .val false } ∧
      run initialState [.ADD_DIGIT "5", .CHOOSE_OPERATION "+", .ADD_DIGIT "3",
          .CHOOSE_OPERATION "*", .ADD_DIGIT "2", .EVALUATE] =
        .ok { currentOperand := .val "16", previousOperand := .null, operation := .null,
              overwrite := .val true } ∧
      reducer { currentOperand := .val "16", previousOperand := .null, operation := .null,
                overwrite := .val true } (.ADD_DIGIT "7") =
        .ok { currentOperand := .val "7", previousOperand := .null, operation := .null,
              overwrite := .val false } := by
  refine ⟨?_, by decide!, by decide⟩
  simp [reducer, hop, hc, hp, bind, Except.bind, Field.truthy]

/-- C6, at the state `8 * 2` and the digit `7`. -/
theorem reducer_evaluate_then_digit_witness :
    (reducer { currentOperand := .val "2", previousOperand := .val "8", operation := .val "*" }
        .EVALUATE >>= fun s1 => reducer s1 (.ADD_DIGIT "7")) =
      .ok { currentOperand := .val "7", previousOperand := .null, operation := .null,
            overwrite := .val false } :=
  (reducer_evaluate_then_digit
    { currentOperand := .val "2", previousOperand := .val "8", operation := .val "*" } "7"
    (by decide) (by decide) (by decide)).1

/-- C8: CLEAR returns the initial state (every property absent), whatever
the state. -/
theorem reducer_clear (s : CalculatorState) : reducer s .CLEAR = .ok initialState := rfl

/-- C9: when the current operand is `"0"`, ADD_DIGIT("0") returns a state
whose current operand is `"0"`, and the unchanged state when the overwrite
flag is not set; from the initial state, ADD_DIGIT("0") twice yields current
operand `"0"`. -/
theorem reducer_leading_zero (s : CalculatorState) (h : s.currentOperand = .val "0") :
    (∃ s1, reducer s (.ADD_DIGIT "0") = .ok s1 ∧ s1.currentOperand = .val "0") ∧
      (s.overwrite.truthy = false → reducer s (.ADD_DIGIT "0") = .ok s) ∧
      run initialState [.ADD_DIGIT "0", .ADD_DIGIT "0"] = .ok { currentOperand := .val "0" } := by
  refine ⟨?_, ?_, by decide⟩
  · by_cases ho : s.overwrite.truthy = true
    · exact ⟨{ s with currentOperand := .val "0", overwrite := .val false },
        by simp [reducer, ho], rfl⟩
    · exact ⟨s, by simp [reducer, ho, h], h⟩
  · intro ho
    simp [reducer, ho, h]

/-- C9, at the state whose only property is the current operand `"0"`. -/
theorem reducer_leading_zero_witness :
    reducer { currentOperand := .val "0" } (.ADD_DIGIT "0") = .ok { currentOperand := .val "0" } :=
  (reducer_leading_zero { currentOperand := .val "0" } rfl).2.1 (by decide)

/-- C10: when the overwrite flag is not set and the current operand contains
a `"."`, ADD_DIGIT(".") returns the state unchanged. -/
theorem reducer_single_decimal_point (s : CalculatorState) (t : String)
    (ho : s.overwrite.truthy = false) (hc : s.currentOperand = .val t)
    (hd : '.' ∈ t.data) :
    reducer s (.ADD_DIGIT ".") = .ok s := by
  have hz : ¬ ("." = "0" ∧ s.currentOperand = .val "0") := fun h => absurd h.1 (by decide)
  simp only [reducer]
  rw [if_neg (by simp [ho]), if_neg hz, if_pos trivial, hc, includes_dot_val]
  simp [hd, bind, Except.bind]

/-- C10, from current operand `"3.1"`: ADD_DIGIT(".") leaves it `"3.1"`. -/
theorem reducer_single_decimal_point_witness :
    reducer { currentOperand := .val "3.1" } (.ADD_DIGIT ".") =
      .ok { currentOperand := .val "3.1" } :=
  reducer_single_decimal_point { currentOperand := .val "3.1" } "3.1" (by decide) rfl (by decide)

/-! ## Reachable states -/

/-- A run of valid actions that returns a state leads from a reachable state
to a reachable state. -/
theorem reachable_run {s : CalculatorState} (hs : Reachable s) (as : List Action)
    (s1 : CalculatorState) (hv : ∀ a ∈ as, validAction a) (h : run s as = .ok s1) :
    Reachable s1 := by
  induction as generalizing s with
  | nil =>
    simp only [run, Except.ok.injEq] at h
    exact h ▸ hs
  | cons a as ih =>
    simp only [run] at h
    cases hr : reducer s a with
    | error e => rw [hr] at h; exact absurd h (by simp [bind, Except.bind])
    | ok s2 =>
      rw [hr] at h
      exact ih (Reachable.step hs (hv a (List.mem_cons_self a as)) hr)
        (fun b hb => hv b (List.mem_cons_of_mem a hb)) h

/-- A digit payload on its own is a typed text. -/
theorem typedText_of_digitPayload (d : String) (hd : isDigitPayload d) : typedText d := by
  simp only [isDigitPayload, List.mem_cons, List.mem_singleton, List.not_mem_nil, or_false] at hd
  rcases hd with h | h | h | h | h | h | h | h | h | h | h <;> subst h <;>
    exact ⟨by decide, by decide⟩

/-- Appending a digit payload to a typed text gives a typed text, provided a
`"."` is only appended to a text without one. -/
theorem typedText_append (t d : String) (ht : typedText t) (hd : isDigitPayload d)
    (hdot : d = "." → '.' ∉ t.data) : typedText (t ++ d) := by
  obtain ⟨hne, hall, hcount⟩ := ht
  have hne1 : t ++ d ≠ "" := by
    intro h
    apply hne
    have h1 := congrArg String.data h
    rw [String.data_append] at h1
    have h2 : t.data = [] := (List.append_eq_nil.mp h1).1
    exact String.ext h2
  refine ⟨hne1, ?_, ?_⟩
  · intro c hc
    rw [String.data_append, List.mem_append] at hc
    rcases hc with hc | hc
    · exact hall c hc
    · exact (typedText_of_digitPayload d hd).2.1 c hc
  · rw [String.data_append, List.count_append]
    by_cases hdd : d = "."
    · have h0 : t.data.count '.' = 0 := List.count_eq_zero.mpr (hdot hdd)
      rw [h0, hdd]
      decide
    · have h0 : d.data.count '.' = 0 := by
        simp only [isDigitPayload, List.mem_cons, List.mem_singleton, List.not_mem_nil,
          or_false] at hd
        rcases hd with h | h | h | h | h | h | h | h | h | h | h
        all_goals first | exact absurd h hdd | (subst h; decide)
      omega

/-- Dropping the last character of a typed text of length other than one
gives a typed text. -/
theorem typedText_sliceInit (t : String) (ht : typedText t) (hl : t.length ≠ 1) :
    typedText (sliceInit t) := by
  obtain ⟨hne, hall, hcount⟩ := ht
  have hlen : 2 ≤ t.data.length := by
    have h0 : t.data ≠ [] := fun h => hne (String.ext h)
    have h1 : t.data.length ≠ 0 := fun h => h0 (List.length_eq_zero.mp h)
    have h2 : t.data.length ≠ 1 := hl
    omega
  refine ⟨?_, ?_, ?_⟩
  · intro h
    have h1 : t.data.dropLast = [] := congrArg String.data h
    have h2 := congrArg List.length h1
    rw [List.length_dropLast] at h2
    simp only [List.length_nil] at h2
    omega
  · intro c hc
    exact hall c (List.mem_of_mem_dropLast hc)
  · exact le_trans (List.Sublist.count_le (List.dropLast_sublist t.data) '.') hcount

/-- Invariant of the reducer: while the overwrite flag is not set, a present
current operand is a typed text. -/
theorem reducer_preserves_typedText (s s1 : CalculatorState) (a : Action)
    (hv : validAction a) (hstep : reducer s a = .ok s1)
    (ih : s.overwrite.truthy = false → ∀ t, s.currentOperand = .val t → typedText t)
    (ho : s1.overwrite.truthy = false) (t : String) (hc : s1.currentOperand = .val t) :
    typedText t := by
  cases a with
  | ADD_DIGIT d =>
    have hd : isDigitPayload d := hv
    simp only [reducer] at hstep
    by_cases hov : s.overwrite.truthy = true
    · rw [if_pos hov] at hstep
      simp only [Except.ok.injEq] at hstep
      subst hstep
      simp only [Field.val.injEq] at hc
      exact hc ▸ typedText_of_digitPayload d hd
    · rw [if_neg hov] at hstep
      have hov1 : s.overwrite.truthy = false := by simpa using hov
      by_cases hz : d = "0" ∧ s.currentOperand = .val "0"
      · rw [if_pos hz] at hstep
        simp only [Except.ok.injEq] at hstep
        subst hstep
        exact ih ho t hc
      · rw [if_neg hz] at hstep
        cases hcur : s.currentOperand with
        | val u =>
          have hu := ih hov1 u hcur
          by_cases hdot : d = "." ∧ '.' ∈ u.data
          · rw [if_pos hdot.1, hcur, includes_dot_val] at hstep
            simp only [hdot.2, decide_True, bind, Except.bind, if_true, ↓reduceIte,
              Except.ok.injEq] at hstep
            subst hstep
            exact ih ho t hc
          · have happ := reducer_addDigit_append s d hov1 hz
              (fun h => ⟨u, hcur, fun hm => hdot ⟨h, hm⟩⟩)
            simp only [reducer, if_neg hov, if_neg hz] at happ
            rw [happ] at hstep
            simp only [Except.ok.injEq] at hstep
            subst hstep
            simp only [hcur, orEmpty_val, Field.val.injEq] at hc
            exact hc ▸ typedText_append u d hu hd (fun h hm => hdot ⟨h, hm⟩)
        | undefined =>
          by_cases hdd : d = "."
          · rw [if_pos hdd, hcur] at hstep
            exact absurd hstep (by simp [includes, bind, Except.bind])
          · rw [if_neg hdd, hcur] at hstep
            simp only [bind, Except.bind, orEmpty, Bool.false_eq_true, if_false,
              Except.ok.injEq] at hstep
            subst hstep
            simp only [Field.val.injEq] at hc
            have he : t = d := by rw [← hc]; exact String.ext (by simp)
            exact he ▸ typedText_of_digitPayload d hd
        | null =>
          by_cases hdd : d = "."
          · rw [if_pos hdd, hcur] at hstep
            exact absurd hstep (by simp [includes, bind, Except.bind])
          · rw [if_neg hdd, hcur] at hstep
            simp only [bind, Except.bind, orEmpty, Bool.false_eq_true, if_false,
              Except.ok.injEq] at hstep
            subst hstep
            simp only [Field.val.injEq] at hc
            have he : t = d := by rw [← hc]; exact String.ext (by simp)
            exact he ▸ typedText_of_digitPayload d hd
  | CHOOSE_OPERATION op =>
    simp only [reducer] at hstep
    split_ifs at hstep with h1 h2 h3
    all_goals simp only [Except.ok.injEq] at hstep
    all_goals subst hstep
    · exact ih ho t hc
    · exact ih ho t hc
    · exact absurd hc (by simp)
    · exact absurd hc (by simp)
  | CLEAR =>
    simp only [reducer, Except.ok.injEq] at hstep
    subst hstep
    exact absurd hc (by simp)
  | DELETE_DIGIT =>
    simp only [reducer] at hstep
    by_cases hov : s.overwrite.truthy = true
    · rw [if_pos hov] at hstep
      simp only [Except.ok.injEq] at hstep
      subst hstep
      exact absurd hc (by simp)
    · rw [if_neg hov] at hstep
      have hov1 : s.overwrite.truthy = false := by simpa using hov
      cases hcur : s.currentOperand with
      | val u =>
        rw [hcur] at hstep
        simp only at hstep
        split_ifs at hstep with hl
        · simp only [Except.ok.injEq] at hstep
          subst hstep
          exact absurd hc (by simp)
        · simp only [Except.ok.injEq] at hstep
          subst hstep
          simp only [Field.val.injEq] at hc
          exact hc ▸ typedText_sliceInit u (ih hov1 u hcur) hl
      | undefined =>
        rw [hcur] at hstep
        simp only [Except.ok.injEq] at hstep
        subst hstep
        exact ih ho t hc
      | null =>
        rw [hcur] at hstep
        simp only [Except.ok.injEq] at hstep
        subst hstep
        exact ih ho t hc
  | EVALUATE =>
    simp only [reducer] at hstep
    split_ifs at hstep with h1
    · simp only [Except.ok.injEq] at hstep
      subst hstep
      exact ih ho t hc
    · simp only [Except.ok.injEq] at hstep
      subst hstep
      exact absurd ho (by simp [Field.truthy])

/-- In a reachable state whose overwrite flag is not set, a present current
operand is a non-empty text of digits with at most one `.`. -/
theorem reachable_typedText (s : CalculatorState) (hr : Reachable s)
    (ho : s.overwrite.truthy = false) (t : String) (hc : s.currentOperand = .val t) :
    typedText t := by
  induction hr generalizing t with
  | init => exact absurd hc (by simp [initialState])
  | step _ hv hstep ih => exact reducer_preserves_typedText _ _ _ hv hstep ih ho t hc

/-- C2 as stated fails: the state reached by `5`, `-`, `8`, EVALUATE is
reachable and its current operand is the non-empty text `"-3"`, which is not
made of digits and `.` only. -/
theorem reachable_currentOperand_negative :
    Reachable { currentOperand := .val "-3", previousOperand := .null, operation := .null,
                overwrite := .val true } ∧
      "-3" ≠ "" ∧ ¬ digitsAndOneDot "-3" := by
  refine ⟨?_, by decide, by decide⟩
  exact reachable_run Reachable.init
    [.ADD_DIGIT "5", .CHOOSE_OPERATION "-", .ADD_DIGIT "8", .EVALUATE] _ (by decide) (by decide!)

/-- C2, amended: in every state reachable from the initial state whose
overwrite flag is not set, the current operand, if present, contains only the
digits 0-9 and at most one `"."`. -/
theorem reachable_currentOperand_digits (s : CalculatorState) (hr : Reachable s)
    (ho : s.overwrite.truthy = false) (t : String) (hc : s.currentOperand = .val t) :
    digitsAndOneDot t :=
  (reachable_typedText s hr ho t hc).2

/-- C2, amended, at the state reached by `3`, `.`, `1`. -/
theorem reachable_currentOperand_digits_witness :
    Reachable { currentOperand := .val "3.1" } ∧ digitsAndOneDot "3.1" :=
  have hr : Reachable { currentOperand := .val "3.1" } :=
    reachable_run Reachable.init [.ADD_DIGIT "3", .ADD_DIGIT ".", .ADD_DIGIT "1"] _
      (by decide) (by decide)
  ⟨hr, reachable_currentOperand_digits _ hr (by decide) "3.1" rfl⟩

/-! ## Exact integer arithmetic -/

theorem log2Fuel_spec (fuel : Nat) : ∀ n, 0 < n → n ≤ fuel →
    2 ^ log2Fuel fuel n ≤ n ∧ n < 2 ^ (log2Fuel fuel n + 1) := by
  induction fuel with
  | zero => intro n h1 h2; omega
  | succ f ih =>
    intro n h1 h2
    simp only [log2Fuel]
    split_ifs with h
    · constructor <;> simp <;> omega
    · have := ih (n / 2) (by omega) (by omega)
      rw [pow_succ, pow_succ (n := log2Fuel f (n / 2) + 1)]
      omega

/-- For positive `n`, `2^(floorLog2 n) ≤ n < 2^(floorLog2 n + 1)`. -/
theorem floorLog2_spec (n : Nat) (h : 0 < n) :
    2 ^ floorLog2 n ≤ n ∧ n < 2 ^ (floorLog2 n + 1) :=
  log2Fuel_spec n n h le_rfl

/-- The exponent `k` with `2^k ≤ n < 2^(k+1)` is `floorLog2 n`. -/
theorem floorLog2_unique (n k : Nat) (h1 : 2 ^ k ≤ n) (h2 : n < 2 ^ (k + 1)) :
    floorLog2 n = k := by
  have hn : 0 < n := lt_of_lt_of_le (by positivity) h1
  obtain ⟨h3, h4⟩ := floorLog2_spec n hn
  have a1 : k < floorLog2 n + 1 := (Nat.pow_lt_pow_iff_right (by norm_num : 1 < 2)).mp (lt_of_le_of_lt h1 h4)
  have a2 : floorLog2 n < k + 1 := (Nat.pow_lt_pow_iff_right (by norm_num : 1 < 2)).mp (lt_of_le_of_lt h3 h2)
  omega

/-- The binary exponent of a fraction whose value is the natural number `q`. -/
theorem ilog2Ratio_mul (q d : Nat) (hq : 0 < q) (hd : 0 < d) :
    ilog2Ratio (q * d) d = (floorLog2 q : Int) := by
  obtain ⟨hq1, hq2⟩ := floorLog2_spec q hq
  obtain ⟨hd1, hd2⟩ := floorLog2_spec d hd
  obtain ⟨hn1, hn2⟩ := floorLog2_spec (q * d) (Nat.mul_pos hq hd)
  set L := floorLog2 q
  set b := floorLog2 d
  set a := floorLog2 (q * d)
  have hlo : 2 ^ (L + b) ≤ q * d := by rw [pow_add]; exact Nat.mul_le_mul hq1 hd1
  have hhi : q * d < 2 ^ (L + b + 2) := by
    have : 2 ^ (L + b + 2) = 2 ^ (L + 1) * 2 ^ (b + 1) := by ring
    rw [this]; exact Nat.mul_lt_mul'' hq2 hd2
  have a1 : a < L + b + 2 := (Nat.pow_lt_pow_iff_right (by norm_num : 1 < 2)).mp (lt_of_le_of_lt hn1 hhi)
  have a2 : L + b < a + 1 := (Nat.pow_lt_pow_iff_right (by norm_num : 1 < 2)).mp (lt_of_le_of_lt hlo hn2)
  have hg : a = L + b ∨ a = L + b + 1 := by omega
  simp only [ilog2Ratio]
  rcases hg with hg | hg
  · have e1 : ((a : Int) - (b : Int)) = (L : Int) := by omega
    rw [e1]
    simp only [scale, Int.natCast_nonneg, if_true, Int.toNat_ofNat]
    rw [if_pos]
    rw [Nat.mul_comm q d]
    exact Nat.mul_le_mul_left d hq1
  · have e1 : ((a : Int) - (b : Int)) = ((L + 1 : Nat) : Int) := by omega
    rw [e1]
    simp only [scale, Int.natCast_nonneg, if_true, Int.toNat_ofNat]
    rw [if_neg]
    · push_cast; omega
    · rw [Nat.mul_comm q d, not_le]
      exact Nat.mul_lt_mul_of_pos_left hq2 hd

/-- An exact quotient is not changed by rounding. -/
theorem roundHalfEven_mul (k d : Nat) (hd : 0 < d) : roundHalfEven (k * d) d = k := by
  simp only [roundHalfEven]
  rw [Nat.mul_mod_left, Nat.mul_div_cancel k hd]
  simp [hd]

/-- Rounding is exact on a fraction whose value is a natural number below
`2^53`. -/
theorem roundRatio_exact (neg : Bool) (q d : Nat) (hq : q < 2 ^ 53) (hd : 0 < d) :
    roundRatio neg (q * d) d = exactNat neg q := by
  by_cases hq0 : q = 0
  · subst hq0; simp [roundRatio, exactNat]
  have hqpos : 0 < q := Nat.pos_of_ne_zero hq0
  obtain ⟨hq1, hq2⟩ := floorLog2_spec q hqpos
  have hL : floorLog2 q < 53 := (Nat.pow_lt_pow_iff_right (by norm_num : 1 < 2)).mp (lt_of_le_of_lt hq1 hq)
  have hn0 : q * d ≠ 0 := Nat.mul_ne_zero hq0 (Nat.pos_iff_ne_zero.mp hd)
  simp only [roundRatio, exactNat, if_neg hn0, if_neg hq0, ilog2Ratio_mul q d hqpos hd]
  set L := floorLog2 q
  have he : max ((L : Int) - 52) (-1074) = (L : Int) - 52 := by omega
  rw [he]
  have hsc : roundHalfEven (scale (q * d) d ((L : Int) - 52)).1 (scale (q * d) d ((L : Int) - 52)).2
      = q * 2 ^ (52 - L) := by
    simp only [scale]
    split_ifs with h
    · have hL52 : L = 52 := by omega
      have : ((L : Int) - 52).toNat = 0 := by omega
      rw [this, hL52]
      simp only [pow_zero, mul_one, Nat.sub_self]
      exact roundHalfEven_mul q d hd
    · have : (-((L : Int) - 52)).toNat = 52 - L := by omega
      rw [this]
      have : q * d * 2 ^ (52 - L) = (q * 2 ^ (52 - L)) * d := by ring
      rw [this]
      exact roundHalfEven_mul _ d hd
  rw [hsc]
  have hlt : q * 2 ^ (52 - L) < 2 ^ 53 := by
    have : 2 ^ 53 = 2 ^ (L + 1) * 2 ^ (52 - L) := by
      rw [← pow_add]; congr 1; omega
    rw [this]
    exact Nat.mul_lt_mul_of_pos_right hq2 (by positivity)
  rw [if_neg (ne_of_lt hlt), if_neg (ne_of_lt hlt), if_neg (by omega)]


/-- The value stored by `exactNat neg q` is `q`: its fraction is `q * D / D`
for a positive `D`. -/
theorem exactNat_ratio (neg : Bool) (q : Nat) (hq : q < 2 ^ 53) :
    ∃ m e D, exactNat neg q = .fin neg m e ∧ ratio m e = (q * D, D) ∧ 0 < D ∧
      (m = 0 ↔ q = 0) := by
  by_cases hq0 : q = 0
  · subst hq0
    refine ⟨0, -1074, 1 * 2 ^ 1074, by simp [exactNat], ?_, by positivity, by simp⟩
    have h1 : (-(-1074 : Int)).toNat = 1074 := by decide
    simp only [ratio, scale, zero_mul]
    rw [if_pos (by decide), h1]
  · have hqpos : 0 < q := Nat.pos_of_ne_zero hq0
    obtain ⟨hq1, hq2⟩ := floorLog2_spec q hqpos
    have hL : floorLog2 q < 53 :=
      (Nat.pow_lt_pow_iff_right (by norm_num : 1 < 2)).mp (lt_of_le_of_lt hq1 hq)
    refine ⟨q * 2 ^ (52 - floorLog2 q), (floorLog2 q : Int) - 52, 2 ^ (52 - floorLog2 q),
      by simp [exactNat, hq0], ?_, by positivity, ?_⟩
    · simp only [ratio, scale]
      rw [if_pos (by omega)]
      have : (-((floorLog2 q : Int) - 52)).toNat = 52 - floorLog2 q := by omega
      rw [this, one_mul]
    · constructor
      · intro h
        rcases Nat.mul_eq_zero.mp h with h | h
        · exact h
        · exact absurd h (by positivity)
      · intro h; exact absurd h hq0

/-- Scaling a signed natural number by a natural factor. -/
theorem signed_mul (s : Bool) (q D : Nat) : signed s (q * D) = signed s q * (D : Int) := by
  cases s <;> simp [signed]

/-- Addition is exact on integers when the sum is below `2^53` in magnitude. -/
theorem add_exactNat (s1 s2 : Bool) (q1 q2 : Nat) (h1 : q1 < 2 ^ 53) (h2 : q2 < 2 ^ 53)
    (h3 : (signed s1 q1 + signed s2 q2).natAbs < 2 ^ 53) :
    (exactNat s1 q1).add (exactNat s2 q2) =
      if signed s1 q1 + signed s2 q2 = 0 then .fin (s1 && s2) 0 (-1074)
      else exactNat (decide (signed s1 q1 + signed s2 q2 < 0))
        (signed s1 q1 + signed s2 q2).natAbs := by
  obtain ⟨m1, e1, D1, hx, hr1, hD1, -⟩ := exactNat_ratio s1 q1 h1
  obtain ⟨m2, e2, D2, hy, hr2, hD2, -⟩ := exactNat_ratio s2 q2 h2
  rw [hx, hy]
  simp only [JSNumber.add, hr1, hr2]
  set z := signed s1 q1 + signed s2 q2 with hz
  have hzz : signed s1 (q1 * D1 * D2) + signed s2 (q2 * D2 * D1) = z * ((D1 * D2 : Nat) : Int) := by
    rw [hz, signed_mul, signed_mul, signed_mul, signed_mul]
    push_cast; ring
  rw [hzz]
  have hDpos : 0 < D1 * D2 := Nat.mul_pos hD1 hD2
  have hDposZ : (0 : Int) < ((D1 * D2 : Nat) : Int) := by exact_mod_cast hDpos
  by_cases hz0 : z = 0
  · simp [hz0]
  · have hne : z * ((D1 * D2 : Nat) : Int) ≠ 0 := mul_ne_zero hz0 (ne_of_gt hDposZ)
    rw [if_neg hne, if_neg hz0]
    have hneg : decide (z * ((D1 * D2 : Nat) : Int) < 0) = decide (z < 0) := by
      congr 1
      exact propext ⟨fun h => by
        by_contra hc
        exact absurd (mul_nonneg (not_lt.mp hc) (le_of_lt hDposZ)) (not_le.mpr h),
        fun h => mul_neg_of_neg_of_pos h hDposZ⟩
    rw [hneg, Int.natAbs_mul, Int.natAbs_ofNat]
    exact roundRatio_exact _ _ _ h3 hDpos

/-- Multiplication is exact on integers when the product is below `2^53`. -/
theorem mul_exactNat (s1 s2 : Bool) (q1 q2 : Nat) (h1 : q1 < 2 ^ 53) (h2 : q2 < 2 ^ 53)
    (h3 : q1 * q2 < 2 ^ 53) :
    (exactNat s1 q1).mul (exactNat s2 q2) = exactNat (xor s1 s2) (q1 * q2) := by
  obtain ⟨m1, e1, D1, hx, hr1, hD1, -⟩ := exactNat_ratio s1 q1 h1
  obtain ⟨m2, e2, D2, hy, hr2, hD2, -⟩ := exactNat_ratio s2 q2 h2
  rw [hx, hy]
  simp only [JSNumber.mul, hr1, hr2]
  have : q1 * D1 * (q2 * D2) = (q1 * q2) * (D1 * D2) := by ring
  rw [this]
  exact roundRatio_exact _ _ _ h3 (Nat.mul_pos hD1 hD2)

/-- Division is exact on integers when the divisor is non-zero and divides
the dividend. -/
theorem div_exactNat (s1 s2 : Bool) (q1 q2 : Nat) (h1 : q1 < 2 ^ 53) (h2 : q2 < 2 ^ 53)
    (h0 : q2 ≠ 0) (hdvd : q2 ∣ q1) :
    (exactNat s1 q1).div (exactNat s2 q2) = exactNat (xor s1 s2) (q1 / q2) := by
  obtain ⟨m1, e1, D1, hx, hr1, hD1, -⟩ := exactNat_ratio s1 q1 h1
  obtain ⟨m2, e2, D2, hy, hr2, hD2, hm2⟩ := exactNat_ratio s2 q2 h2
  rw [hx, hy]
  have hm2' : m2 ≠ 0 := fun h => h0 (hm2.mp h)
  simp only [JSNumber.div, hr1, hr2, if_neg hm2']
  obtain ⟨c, rfl⟩ := hdvd
  have hq2pos : 0 < q2 := Nat.pos_of_ne_zero h0
  rw [Nat.mul_div_cancel_left c hq2pos]
  have : q2 * c * D1 * D2 = c * (D1 * (q2 * D2)) := by ring
  rw [this]
  have hc : c < 2 ^ 53 := lt_of_le_of_lt (Nat.le_mul_of_pos_left c hq2pos) h1
  exact roundRatio_exact _ _ _ hc (Nat.mul_pos hD1 (Nat.mul_pos hq2pos hD2))


/-! ### Decimal digits -/

theorem toDigitsCore_append (f : Nat) : ∀ (n : Nat) (ds : List Char),
    Nat.toDigitsCore 10 f n ds = Nat.toDigitsCore 10 f n [] ++ ds := by
  induction f with
  | zero => intro n ds; simp [Nat.toDigitsCore]
  | succ f ih =>
    intro n ds
    simp only [Nat.toDigitsCore]
    split_ifs with h
    · simp
    · rw [ih (n / 10) (Nat.digitChar (n % 10) :: ds), ih (n / 10) [Nat.digitChar (n % 10)]]
      simp

/-- The digit loop does not depend on its fuel once the fuel exceeds the
number. -/
theorem toDigitsCore_fuel (f1 : Nat) : ∀ (f2 n : Nat) (ds : List Char), n < f1 → n < f2 →
    Nat.toDigitsCore 10 f1 n ds = Nat.toDigitsCore 10 f2 n ds := by
  induction f1 with
  | zero => intro f2 n ds h; omega
  | succ f1 ih =>
    intro f2 n ds h1 h2
    cases f2 with
    | zero => omega
    | succ f2 =>
      simp only [Nat.toDigitsCore]
      split_ifs with h
      · rfl
      · exact ih f2 (n / 10) _ (by omega) (by omega)

/-- The decimal digits of `n`: the digits of `n / 10` followed by the last
digit, for `n ≥ 10`. -/
theorem toDigits_step (n : Nat) (h : 10 ≤ n) :
    Nat.toDigits 10 n = Nat.toDigits 10 (n / 10) ++ [Nat.digitChar (n % 10)] := by
  have h0 : n / 10 ≠ 0 := by omega
  have hs : Nat.toDigitsCore 10 (n + 1) n [] =
      Nat.toDigitsCore 10 n (n / 10) [Nat.digitChar (n % 10)] := by
    simp only [Nat.toDigitsCore, if_neg h0]
  rw [Nat.toDigits, hs, toDigitsCore_append,
    toDigitsCore_fuel n (n / 10 + 1) (n / 10) [] (by omega) (by omega)]
  rfl

/-- Every natural number has at least one decimal digit. -/
theorem toDigits_ne_nil (n : Nat) : Nat.toDigits 10 n ≠ [] := by
  by_cases h : 10 ≤ n
  · rw [toDigits_step n h]; simp
  · have h0 : n / 10 = 0 := by omega
    simp [Nat.toDigits, Nat.toDigitsCore, h0]

/-- Multiplying a positive number by `10^z` appends `z` zeros to its digits. -/
theorem toDigits_mul_pow (s z : Nat) (hs : 0 < s) :
    Nat.toDigits 10 (s * 10 ^ z) = Nat.toDigits 10 s ++ List.replicate z '0' := by
  induction z with
  | zero => simp
  | succ z ih =>
    have hpos : 0 < s * 10 ^ z := Nat.mul_pos hs (by positivity)
    have e1 : s * 10 ^ (z + 1) = 10 * (s * 10 ^ z) := by ring
    rw [e1, toDigits_step _ (by omega), Nat.mul_div_cancel_left _ (by norm_num : 0 < 10),
      Nat.mul_mod_right, ih, List.replicate_succ', List.append_assoc]
    rfl

/-! ### Conversion of decimals near an exactly held integer -/

theorem exactNat_injective (q1 q2 : Nat) (h : exactNat false q1 = exactNat false q2) :
    q1 = q2 := by
  simp only [exactNat] at h
  split_ifs at h with h1 h2 h2
  · rw [h1, h2]
  · simp only [JSNumber.fin.injEq, true_and] at h
    have := h.1
    rcases Nat.mul_eq_zero.mp this.symm with h3 | h3
    · exact absurd h3 h2
    · exact absurd h3 (by positivity)
  · simp only [JSNumber.fin.injEq, true_and] at h
    have := h.1
    rcases Nat.mul_eq_zero.mp this with h3 | h3
    · exact absurd h3 h1
    · exact absurd h3 (by positivity)
  · simp only [JSNumber.fin.injEq, true_and] at h
    obtain ⟨hm, he⟩ := h
    have hL : floorLog2 q1 = floorLog2 q2 := by omega
    rw [hL] at hm
    exact Nat.eq_of_mul_eq_mul_right (by positivity) hm

/-- A natural number of `2^53` or more does not convert to the value of a
smaller one. -/
theorem roundRatio_large_ne (h q : Nat) (hh : 2 ^ 53 ≤ h) (hq : q < 2 ^ 53) :
    roundRatio false h 1 ≠ exactNat false q := by
  have hpos : 0 < h := lt_of_lt_of_le (by positivity) hh
  obtain ⟨h1, h2⟩ := floorLog2_spec h hpos
  have hL : 53 < floorLog2 h + 1 :=
    (Nat.pow_lt_pow_iff_right (by norm_num : 1 < 2)).mp (lt_of_le_of_lt hh h2)
  have hlog := ilog2Ratio_mul h 1 hpos Nat.one_pos
  rw [mul_one] at hlog
  have hexp : ∀ (neg : Bool) (m : Nat) (e : Int), exactNat false q = .fin neg m e → e ≤ 0 := by
    intro neg m e he
    simp only [exactNat] at he
    split_ifs at he with hq0
    · simp only [JSNumber.fin.injEq] at he; omega
    · simp only [JSNumber.fin.injEq] at he
      have hqpos : 0 < q := Nat.pos_of_ne_zero hq0
      obtain ⟨hq1, -⟩ := floorLog2_spec q hqpos
      have hLq : floorLog2 q < 53 :=
        (Nat.pow_lt_pow_iff_right (by norm_num : 1 < 2)).mp (lt_of_le_of_lt hq1 hq)
      omega
  intro hcon
  simp only [roundRatio, if_neg (Nat.pos_iff_ne_zero.mp hpos), hlog] at hcon
  have he : max ((floorLog2 h : Int) - 52) (-1074) = (floorLog2 h : Int) - 52 := by omega
  rw [he] at hcon
  split_ifs at hcon with c1 c2 c3
  · exact absurd hcon.symm (by simp [exactNat]; split_ifs <;> simp)
  · have := hexp _ _ _ hcon.symm; omega
  · exact absurd hcon.symm (by simp [exactNat]; split_ifs <;> simp)
  · have := hexp _ _ _ hcon.symm; omega


/-- A decimal `c * 10^j` converts to the value holding `q < 2^53` exactly
when it is `q`. -/
theorem decimalValue_eq_iff (c j q : Nat) (hq : q < 2 ^ 53) :
    decimalValue false c (j : Int) = exactNat false q ↔ c * 10 ^ j = q := by
  simp only [decimalValue, Int.natCast_nonneg, if_true, Int.toNat_ofNat]
  by_cases hlt : c * 10 ^ j < 2 ^ 53
  · have h1 := roundRatio_exact false (c * 10 ^ j) 1 hlt Nat.one_pos
    rw [mul_one] at h1
    rw [h1]
    exact ⟨exactNat_injective _ _, fun h => by rw [h]⟩
  · constructor
    · intro h
      exact absurd h (roundRatio_large_ne _ q (not_lt.mp hlt) hq)
    · intro h
      omega

/-- Among the decimals with `k` digits and exponent `k + j`, only
`q / 10^j` can convert to the value holding `q`, and it does when `10^j`
divides `q`. -/
theorem candidate_exactNat (q D k j : Nat) (hq : q < 2 ^ 53) (hD : 0 < D) :
    candidate (exactNat false q) (q * D) D ((k + j : Nat) : Int) k =
      if q / 10 ^ j * 10 ^ j = q then some (q / 10 ^ j) else none := by
  have e1 : ((k + j : Nat) : Int) - (k : Int) = (j : Int) := by omega
  have hlo : (scale10 (q * D) D ((k : Int) - ((k + j : Nat) : Int))).1 /
      (scale10 (q * D) D ((k : Int) - ((k + j : Nat) : Int))).2 = q / 10 ^ j := by
    simp only [scale10]
    split_ifs with h
    · have hj : j = 0 := by omega
      subst hj
      have : ((k : Int) - ((k + 0 : Nat) : Int)).toNat = 0 := by omega
      rw [this]
      simp only [pow_zero, mul_one, Nat.div_one]
      exact Nat.mul_div_cancel q hD
    · have : (-((k : Int) - ((k + j : Nat) : Int))).toNat = j := by omega
      rw [this, Nat.mul_comm q D]
      exact Nat.mul_div_mul_left q (10 ^ j) hD
  have hP : 0 < 10 ^ j := by positivity
  have hhi : (q / 10 ^ j + 1) * 10 ^ j ≠ q := by
    have h1 := Nat.div_add_mod q (10 ^ j)
    have h2 := Nat.mod_lt q hP
    have h3 : (q / 10 ^ j + 1) * 10 ^ j = 10 ^ j * (q / 10 ^ j) + 10 ^ j := by ring
    omega
  simp only [candidate, e1, hlo, decimalValue_eq_iff _ _ _ hq, hhi, decide_False,
    Bool.and_false, Bool.false_eq_true, if_false, decide_eq_true_eq]

/-- The search for the shortest digits stops at the first length with a
candidate. -/
theorem shortestDigits_eq (x : JSNumber) (N D : Nat) (n : Int) (s k0 : Nat)
    (hs : candidate x N D n k0 = some s) :
    ∀ fuel k, k ≤ k0 → k0 < k + fuel →
      (∀ k1, k ≤ k1 → k1 < k0 → candidate x N D n k1 = none) →
      shortestDigits x N D n fuel k = (s, k0) := by
  intro fuel
  induction fuel with
  | zero => intro k h1 h2; omega
  | succ f ih =>
    intro k h1 h2 hnone
    simp only [shortestDigits]
    by_cases hk : k = k0
    · subst hk; rw [hs]
    · rw [hnone k le_rfl (by omega)]
      exact ih (k + 1) (by omega) (by omega) (fun k1 a b => hnone k1 (by omega) b)

/-- The text of a positive integer below `2^53` held exactly is its decimal
numeral. -/
theorem positiveToString_exactNat (q : Nat) (hq0 : q ≠ 0) (hq : q < 2 ^ 53) :
    positiveToString (q * 2 ^ (52 - floorLog2 q)) ((floorLog2 q : Int) - 52) =
      Nat.toDigits 10 q := by
  obtain ⟨m, e, D, hx, hr, hD, -⟩ := exactNat_ratio false q hq
  have hx1 : exactNat false q =
      .fin false (q * 2 ^ (52 - floorLog2 q)) ((floorLog2 q : Int) - 52) := by
    simp [exactNat, hq0]
  rw [hx1] at hx
  simp only [JSNumber.fin.injEq, true_and] at hx
  obtain ⟨hm, he⟩ := hx
  rw [hm, he]
  have hx2 : JSNumber.fin false m e = exactNat false q := by rw [hx1, hm, he]
  obtain ⟨z, s0, hs0, hqs⟩ := Nat.exists_eq_pow_mul_and_not_dvd hq0 10 (by norm_num)
  have hs0pos : 0 < s0 := by
    rcases Nat.eq_zero_or_pos s0 with h | h
    · exact absurd (h ▸ dvd_zero 10) hs0
    · exact h
  have hqs1 : q = s0 * 10 ^ z := by rw [hqs, Nat.mul_comm]
  have hdig : Nat.toDigits 10 q = Nat.toDigits 10 s0 ++ List.replicate z '0' := by
    rw [hqs1]; exact toDigits_mul_pow s0 z hs0pos
  set k0 := (Nat.toDigits 10 s0).length with hk0
  have hk0pos : 0 < k0 := List.length_pos.mpr (toDigits_ne_nil s0)
  have hlen : (Nat.toDigits 10 q).length = k0 + z := by
    rw [hdig, List.length_append, List.length_replicate]
  have hlen16 : (Nat.toDigits 10 q).length ≤ 16 :=
    Nat.repr_length q 16 (by norm_num) (lt_trans hq (by norm_num))
  have hn0 : decimalExponent (q * D) D = ((k0 + z : Nat) : Int) := by
    simp only [decimalExponent]
    rw [if_pos (Nat.le_mul_of_pos_left D (Nat.pos_of_ne_zero hq0)), Nat.mul_div_cancel q hD, hlen]
  have hcand : ∀ k j, k + j = k0 + z →
      candidate (.fin false m e) (q * D) D ((k0 + z : Nat) : Int) k =
        if q / 10 ^ j * 10 ^ j = q then some (q / 10 ^ j) else none := by
    intro k j hkj
    rw [hx2, ← hkj]
    exact candidate_exactNat q D k j hq hD
  have hc0 : candidate (.fin false m e) (q * D) D ((k0 + z : Nat) : Int) k0 = some s0 := by
    rw [hcand k0 z rfl, hqs1, Nat.mul_div_cancel s0 (by positivity), if_pos rfl]
  have hc1 : ∀ k1, 1 ≤ k1 → k1 < k0 →
      candidate (.fin false m e) (q * D) D ((k0 + z : Nat) : Int) k1 = none := by
    intro k1 h1 h2
    rw [hcand k1 (k0 + z - k1) (by omega), if_neg]
    intro hdiv
    apply hs0
    have hd1 : 10 ^ (k0 + z - k1) ∣ q := Dvd.intro_left _ hdiv
    have hd2 : 10 ^ (z + 1) ∣ 10 ^ z * s0 := by
      rw [← hqs]
      exact dvd_trans (pow_dvd_pow 10 (by omega)) hd1
    rw [pow_succ] at hd2
    exact (Nat.mul_dvd_mul_iff_left (by positivity)).mp hd2
  have hsd := shortestDigits_eq (.fin false m e) (q * D) D ((k0 + z : Nat) : Int) s0 k0 hc0
    17 1 hk0pos (by omega) hc1
  have hne : s0 ≠ 10 ^ k0 := by
    intro h
    apply hs0
    rw [h]
    exact dvd_pow_self 10 (by omega)
  simp only [positiveToString, hr, hn0, hsd, if_neg hne, formatDigits]
  rw [if_pos (by omega), if_pos (by omega), hdig]
  congr 2
  omega


/-- A digit is not white space. -/
theorem isDigit_not_whiteSpace (c : Char) (h : c.isDigit = true) :
    isStrWhiteSpaceChar c = false := by
  simp only [Char.isDigit, Bool.and_eq_true, decide_eq_true_eq] at h
  obtain ⟨h1, h2⟩ := h
  have h3 : 48 ≤ c.toNat := h1
  have h4 : c.toNat ≤ 57 := h2
  simp only [isStrWhiteSpaceChar, Bool.or_eq_false_iff, Bool.and_eq_false_iff,
    decide_eq_false_iff_not]
  omega

/-- The unsigned part of an integer numeral converts to the rounded value of
its digits. -/
theorem parseUnsigned_digits (neg : Bool) (ds : List Char) (hne : ds ≠ [])
    (hd : ∀ c ∈ ds, c.isDigit = true) :
    parseUnsigned neg ds = roundRatio neg (digitsValue ds) 1 := by
  obtain ⟨c, rest, rfl⟩ := List.exists_cons_of_ne_nil hne
  have hc : c.isDigit = true := hd c (List.mem_cons_self c rest)
  have hI : c ≠ 'I' := fun h => absurd (h ▸ hc) (by decide)
  have hpre : "Infinity".data.isPrefixOf (c :: rest) = false := by
    have : "Infinity".data = ['I', 'n', 'f', 'i', 'n', 'i', 't', 'y'] := rfl
    rw [this]
    simp [List.isPrefixOf, Ne.symm hI]
  have htake : (c :: rest).takeWhile Char.isDigit = c :: rest :=
    List.takeWhile_eq_self_iff.mpr hd
  have hdrop : (c :: rest).dropWhile Char.isDigit = [] :=
    List.dropWhile_eq_nil_iff.mpr hd
  simp only [parseUnsigned, hpre, htake, hdrop, exponentPart, decimalValue]
  simp


/-- An integer numeral of magnitude below `2^53` converts to the value that
holds the integer exactly. -/
theorem parseFloatString_intNumeral (t : String) (a : Int) (h : isIntNumeral t a)
    (ha : a.natAbs < 2 ^ 53) :
    ∃ neg q, q < 2 ^ 53 ∧ a = signed neg q ∧ parseFloatString t = exactNat neg q := by
  obtain ⟨ds, hne, hd, h1 | h1⟩ := h
  · obtain ⟨ht, hv⟩ := h1
    refine ⟨false, digitsValue ds, by omega, by simp [signed, hv], ?_⟩
    obtain ⟨c, rest, rfl⟩ := List.exists_cons_of_ne_nil hne
    have hc : c.isDigit = true := hd c (List.mem_cons_self c rest)
    have hplus : c ≠ '+' := fun h => absurd (h ▸ hc) (by decide)
    have hminus : c ≠ '-' := fun h => absurd (h ▸ hc) (by decide)
    simp only [parseFloatString, ht]
    rw [List.dropWhile_cons_of_neg (by simp [isDigit_not_whiteSpace c hc])]
    split
    · rename_i heq; simp only [List.cons.injEq] at heq; exact absurd heq.1 hplus
    · rename_i heq; simp only [List.cons.injEq] at heq; exact absurd heq.1 hminus
    · rw [parseUnsigned_digits false _ hne hd]
      have := roundRatio_exact false (digitsValue (c :: rest)) 1 (by omega) Nat.one_pos
      rwa [mul_one] at this
  · obtain ⟨ht, hv⟩ := h1
    refine ⟨true, digitsValue ds, by omega, by simp [signed, hv], ?_⟩
    simp only [parseFloatString, ht]
    rw [List.dropWhile_cons_of_neg (by decide)]
    simp only
    rw [parseUnsigned_digits true _ hne hd]
    have := roundRatio_exact true (digitsValue ds) 1 (by omega) Nat.one_pos
    rwa [mul_one] at this

/-- An exactly held integer is not NaN. -/
theorem isNaN_exactNat (neg : Bool) (q : Nat) : isNaN (exactNat neg q) = false := by
  simp only [exactNat]; split_ifs <;> rfl

/-- Negating an exactly held integer flips its sign. -/
theorem neg_exactNat (neg : Bool) (q : Nat) : (exactNat neg q).neg = exactNat (!neg) q := by
  simp only [exactNat]; split_ifs <;> rfl

/-- The text of an integer of magnitude below `2^53` held exactly is its
canonical decimal string. -/
theorem toString_exactNat (neg : Bool) (q : Nat) (hq : q < 2 ^ 53) :
    (exactNat neg q).toString = toString (signed neg q) := by
  by_cases hq0 : q = 0
  · subst hq0
    cases neg <;> rfl
  · have hm : q * 2 ^ (52 - floorLog2 q) ≠ 0 :=
      Nat.mul_ne_zero hq0 (by positivity)
    simp only [exactNat, if_neg hq0, JSNumber.toString, if_neg hm,
      positiveToString_exactNat q hq0 hq]
    cases neg
    · rfl
    · obtain ⟨n, rfl⟩ := Nat.exists_eq_succ_of_ne_zero hq0
      rfl


/-! ### Canonical decimal strings are numerals -/

theorem digitsValue_append_singleton (l : List Char) (c : Char) :
    digitsValue (l ++ [c]) = 10 * digitsValue l + (c.toNat - 48) := by
  simp [digitsValue, List.foldl_append]

/-- The character of a digit below ten is a digit character with that
value. -/
theorem digitChar_digit (d : Nat) (h : d < 10) :
    (Nat.digitChar d).isDigit = true ∧ (Nat.digitChar d).toNat - 48 = d := by
  interval_cases d <;> exact ⟨by decide, by decide⟩

/-- A number below ten has one decimal digit. -/
theorem toDigits_small (n : Nat) (h : n < 10) : Nat.toDigits 10 n = [Nat.digitChar n] := by
  have h0 : n / 10 = 0 := by omega
  have h1 : n % 10 = n := by omega
  simp [Nat.toDigits, Nat.toDigitsCore, h0, h1]

/-- The decimal digits of a natural number are digit characters and
`digitsValue` reads the number back from them. -/
theorem toDigits_spec (n : Nat) :
    (∀ c ∈ Nat.toDigits 10 n, c.isDigit = true) ∧ digitsValue (Nat.toDigits 10 n) = n := by
  induction n using Nat.strong_induction_on with
  | _ n ih =>
    by_cases h : n < 10
    · rw [toDigits_small n h]
      obtain ⟨h1, h2⟩ := digitChar_digit n h
      refine ⟨by simpa using h1, ?_⟩
      simp [digitsValue, h2]
    · obtain ⟨ih1, ih2⟩ := ih (n / 10) (by omega)
      obtain ⟨h1, h2⟩ := digitChar_digit (n % 10) (by omega)
      rw [toDigits_step n (by omega)]
      refine ⟨?_, ?_⟩
      · intro c hc
        rcases List.mem_append.mp hc with hc | hc
        · exact ih1 c hc
        · rw [List.mem_singleton.mp hc]; exact h1
      · rw [digitsValue_append_singleton, ih2, h2]
        omega

/-- The canonical decimal string of an integer is a decimal numeral of it. -/
theorem isIntNumeral_toString (a : Int) : isIntNumeral (toString a) a := by
  cases a with
  | ofNat m =>
    exact ⟨Nat.toDigits 10 m, toDigits_ne_nil m, (toDigits_spec m).1,
      Or.inl ⟨rfl, by rw [(toDigits_spec m).2]; rfl⟩⟩
  | negSucc m =>
    refine ⟨Nat.toDigits 10 (m + 1), toDigits_ne_nil _, (toDigits_spec _).1, Or.inr ⟨rfl, ?_⟩⟩
    rw [(toDigits_spec _).2]
    rfl

/-! ### The evaluator on integer operands -/

theorem signed_natAbs (z : Int) : signed (decide (z < 0)) z.natAbs = z := by
  by_cases h : z < 0
  · simp only [signed, h, decide_True, if_true]; omega
  · simp only [signed, h, decide_False, Bool.false_eq_true, if_false]; omega

/-- Flipping the sign negates. -/
theorem signed_not (neg : Bool) (q : Nat) : signed (!neg) q = -signed neg q := by
  cases neg <;> simp [signed]

/-- The sign of a product is the exclusive or of the signs. -/
theorem signed_xor_mul (s1 s2 : Bool) (q1 q2 : Nat) :
    signed (xor s1 s2) (q1 * q2) = signed s1 q1 * signed s2 q2 := by
  cases s1 <;> cases s2 <;> simp [signed]

/-- The magnitude of a signed natural number. -/
theorem natAbs_signed (neg : Bool) (q : Nat) : (signed neg q).natAbs = q := by
  cases neg <;> simp [signed]

/-- The text of the sum of two exactly held integers. -/
theorem toString_add_exactNat (s1 s2 : Bool) (q1 q2 : Nat) (h1 : q1 < 2 ^ 53)
    (h2 : q2 < 2 ^ 53) (h3 : (signed s1 q1 + signed s2 q2).natAbs < 2 ^ 53) :
    ((exactNat s1 q1).add (exactNat s2 q2)).toString =
      toString (signed s1 q1 + signed s2 q2) := by
  rw [add_exactNat s1 s2 q1 q2 h1 h2 h3]
  split_ifs with hz
  · rw [hz]; rfl
  · rw [toString_exactNat _ _ h3, signed_natAbs]

/-- C7: for operand texts that are decimal numerals of integers `a`
(previous) and `b` (current) of magnitude below `2^53`, `evaluate` returns
the canonical decimal string of `a + b` for `"+"`, of `a - b` for `"-"` and of
`a * b` for `"*"` when that result has magnitude below `2^53`, and of `a / b`
for `"÷"` when `b` is non-zero and divides `a`. -/
theorem evaluate_integer_arithmetic (s : CalculatorState) (p c : String) (a b : Int)
    (hprev : s.previousOperand = .val p) (hcur : s.currentOperand = .val c)
    (hp : isIntNumeral p a) (hc : isIntNumeral c b)
    (ha : a.natAbs < 2 ^ 53) (hb : b.natAbs < 2 ^ 53) :
    (s.operation = .val "+" → (a + b).natAbs < 2 ^ 53 → evaluate s = toString (a + b)) ∧
    (s.operation = .val "-" → (a - b).natAbs < 2 ^ 53 → evaluate s = toString (a - b)) ∧
    (s.operation = .val "*" → (a * b).natAbs < 2 ^ 53 → evaluate s = toString (a * b)) ∧
    (s.operation = .val "÷" → b ≠ 0 → b ∣ a → evaluate s = toString (a / b)) := by
  obtain ⟨s1, q1, h1, rfl, hx⟩ := parseFloatString_intNumeral p a hp ha
  obtain ⟨s2, q2, h2, rfl, hy⟩ := parseFloatString_intNumeral c b hc hb
  have hnan : (isNaN (exactNat s1 q1) || isNaN (exactNat s2 q2)) = false := by
    rw [isNaN_exactNat, isNaN_exactNat]; rfl
  have hne1 : (Field.val "-" : Field String) ≠ .val "+" := by decide
  have hne2 : (Field.val "*" : Field String) ≠ .val "+" := by decide
  have hne3 : (Field.val "*" : Field String) ≠ .val "-" := by decide
  have hne4 : (Field.val "÷" : Field String) ≠ .val "+" := by decide
  have hne5 : (Field.val "÷" : Field String) ≠ .val "-" := by decide
  have hne6 : (Field.val "÷" : Field String) ≠ .val "*" := by decide
  refine ⟨?_, ?_, ?_, ?_⟩
  · intro hop hr
    simp only [evaluate, hprev, hcur, parseFloat, hx, hy, hnan, hop, Bool.false_eq_true,
      if_false, if_true]
    exact toString_add_exactNat s1 s2 q1 q2 h1 h2 hr
  · intro hop hr
    simp only [evaluate, hprev, hcur, parseFloat, hx, hy, hnan, hop, Bool.false_eq_true,
      if_false, if_true, if_neg hne1, JSNumber.sub, neg_exactNat]
    have e : signed s1 q1 - signed s2 q2 = signed s1 q1 + signed (!s2) q2 := by
      rw [signed_not]; ring
    rw [e] at hr ⊢
    exact toString_add_exactNat s1 (!s2) q1 q2 h1 h2 hr
  · intro hop hr
    simp only [evaluate, hprev, hcur, parseFloat, hx, hy, hnan, hop, Bool.false_eq_true,
      if_false, if_true, if_neg hne2, if_neg hne3]
    have hq : q1 * q2 < 2 ^ 53 := by
      rw [← signed_xor_mul s1 s2, natAbs_signed] at hr; exact hr
    rw [mul_exactNat s1 s2 q1 q2 h1 h2 hq, toString_exactNat _ _ hq, signed_xor_mul]
  · intro hop hb0 hdvd
    simp only [evaluate, hprev, hcur, parseFloat, hx, hy, hnan, hop, Bool.false_eq_true,
      if_false, if_true, if_neg hne4, if_neg hne5, if_neg hne6]
    have hq0 : q2 ≠ 0 := by
      intro h; apply hb0; rw [h]; cases s2 <;> simp [signed]
    have hqd : q2 ∣ q1 := by
      have := Int.natAbs_dvd_natAbs.mpr hdvd
      rwa [natAbs_signed, natAbs_signed] at this
    have hlt : q1 / q2 < 2 ^ 53 := lt_of_le_of_lt (Nat.div_le_self q1 q2) h1
    rw [div_exactNat s1 s2 q1 q2 h1 h2 hq0 hqd, toString_exactNat _ _ hlt]
    congr 1
    obtain ⟨k, rfl⟩ := hqd
    rw [Nat.mul_div_cancel_left k (Nat.pos_of_ne_zero hq0)]
    have e : signed s1 (q2 * k) = signed s2 q2 * signed (xor s1 s2) k := by
      cases s1 <;> cases s2 <;> simp [signed]
    rw [e, Int.mul_ediv_cancel_left _ hb0]

/-- C7, at the operands `"12"` and `"-4"`: the sum is `"8"`, the difference
`"16"`, the product `"-48"` and the quotient `"-3"`. -/
theorem evaluate_integer_arithmetic_witness :
    evaluate { previousOperand := .val "12", currentOperand := .val "-4", operation := .val "+" }
        = "8" ∧
      evaluate { previousOperand := .val "12", currentOperand := .val "-4", operation := .val "-" }
        = "16" ∧
      evaluate { previousOperand := .val "12", currentOperand := .val "-4", operation := .val "*" }
        = "-48" ∧
      evaluate { previousOperand := .val "12", currentOperand := .val "-4", operation := .val "÷" }
        = "-3" := by
  have hp : isIntNumeral "12" 12 := ⟨['1', '2'], by decide, by decide, Or.inl ⟨rfl, by decide⟩⟩
  have hc : isIntNumeral "-4" (-4) := ⟨['4'], by decide, by decide, Or.inr ⟨rfl, by decide⟩⟩
  refine ⟨?_, ?_, ?_, ?_⟩
  · exact (evaluate_integer_arithmetic _ "12" "-4" 12 (-4) rfl rfl hp hc (by decide)
      (by decide)).1 rfl (by decide)
  · exact (evaluate_integer_arithmetic _ "12" "-4" 12 (-4) rfl rfl hp hc (by decide)
      (by decide)).2.1 rfl (by decide)
  · exact (evaluate_integer_arithmetic _ "12" "-4" 12 (-4) rfl rfl hp hc (by decide)
      (by decide)).2.2.1 rfl (by decide)
  · exact (evaluate_integer_arithmetic _ "12" "-4" 12 (-4) rfl rfl hp hc (by decide)
      (by decide)).2.2.2 rfl (by decide) (by decide)


/-! ## Delete, first operator, incomplete requests -/

/-- C11: when the overwrite flag is true, DELETE_DIGIT returns the state with
the current operand cleared and the overwrite flag false, previous operand
and operation unchanged, whatever the old current operand. -/
theorem reducer_delete_overwrite (s : CalculatorState) (ho : s.overwrite.truthy = true) :
    reducer s .DELETE_DIGIT = .ok { s with overwrite := .val false, currentOperand := .null } := by
  simp [reducer, ho]

/-- C11, at the state produced by EVALUATE on `8 * 2`. -/
theorem reducer_delete_overwrite_witness :
    reducer { currentOperand := .val "16", previousOperand := .null, operation := .null,
              overwrite := .val true } .DELETE_DIGIT =
      .ok { currentOperand := .null, previousOperand := .null, operation := .null,
            overwrite := .val false } :=
  reducer_delete_overwrite _ (by decide)

/-- C12: when the overwrite flag is not set, DELETE_DIGIT returns the state
unchanged if the current operand is absent, clears the current operand if it
has exactly one character, and otherwise replaces it by the old text without
its last character; the other properties are unchanged. -/
theorem reducer_delete_last (s : CalculatorState) (ho : s.overwrite.truthy = false) :
    (s.currentOperand.isNullish = true → reducer s .DELETE_DIGIT = .ok s) ∧
      (∀ t, s.currentOperand = .val t → t.length = 1 →
        reducer s .DELETE_DIGIT = .ok { s with currentOperand := .null }) ∧
      (∀ t, s.currentOperand = .val t → t.length ≠ 1 →
        reducer s .DELETE_DIGIT =
          .ok { s with currentOperand := .val (String.mk t.data.dropLast) }) := by
  refine ⟨?_, ?_, ?_⟩
  · intro hc
    cases h : s.currentOperand with
    | val t => rw [h] at hc; exact absurd hc (by simp [Field.isNullish])
    | undefined => simp [reducer, ho, h]
    | null => simp [reducer, ho, h]
  · intro t hc hl
    simp [reducer, ho, hc, hl]
  · intro t hc hl
    simp [reducer, ho, hc, hl, sliceInit]

/-- C12, at the current operands `"12"` and `"7"` and at the initial state. -/
theorem reducer_delete_last_witness :
    reducer { currentOperand := .val "12" } .DELETE_DIGIT = .ok { currentOperand := .val "1" } ∧
      reducer { currentOperand := .val "7" } .DELETE_DIGIT = .ok { currentOperand := .null } ∧
      reducer initialState .DELETE_DIGIT = .ok initialState :=
  ⟨(reducer_delete_last { currentOperand := .val "12" } (by decide)).2.2 "12" rfl (by decide),
    (reducer_delete_last { currentOperand := .val "7" } (by decide)).2.1 "7" rfl (by decide),
    (reducer_delete_last initialState (by decide)).1 (by decide)⟩

/-- C13: when the current operand is present and the previous operand is
absent, CHOOSE_OPERATION sets the operation, moves the current operand into
the previous operand and clears the current operand. -/
theorem reducer_chooseOperation_first (s : CalculatorState) (op : String)
    (hc : s.currentOperand.isNullish = false) (hp : s.previousOperand.isNullish = true) :
    reducer s (.CHOOSE_OPERATION op) =
      .ok { s with
            operation := .val op
            previousOperand := s.currentOperand
            currentOperand := .null } := by
  simp [reducer, hc, hp]

/-- C13, after the digit `5`. -/
theorem reducer_chooseOperation_first_witness :
    reducer { currentOperand := .val "5" } (.CHOOSE_OPERATION "+") =
      .ok { currentOperand := .null, previousOperand := .val "5", operation := .val "+" } :=
  reducer_chooseOperation_first { currentOperand := .val "5" } "+" (by decide) (by decide)

/-- C14: CHOOSE_OPERATION returns the state unchanged when both operands are
absent, and EVALUATE returns the state unchanged when the operation, the
current operand or the previous operand is absent. -/
theorem reducer_incomplete_noop (s : CalculatorState) :
    (s.currentOperand.isNullish = true → s.previousOperand.isNullish = true →
        ∀ op, reducer s (.CHOOSE_OPERATION op) = .ok s) ∧
      (s.operation.isNullish = true ∨ s.currentOperand.isNullish = true ∨
          s.previousOperand.isNullish = true → reducer s .EVALUATE = .ok s) := by
  refine ⟨?_, ?_⟩
  · intro hc hp op
    simp [reducer, hc, hp]
  · intro h
    rcases h with h | h | h <;> simp [reducer, h]

/-- C14, at the initial state and after `5`, `+`. -/
theorem reducer_incomplete_noop_witness :
    reducer initialState (.CHOOSE_OPERATION "+") = .ok initialState ∧
      reducer { currentOperand := .null, previousOperand := .val "5", operation := .val "+" }
          .EVALUATE =
        .ok { currentOperand := .null, previousOperand := .val "5", operation := .val "+" } :=
  ⟨(reducer_incomplete_noop initialState).1 (by decide) (by decide) "+",
    (reducer_incomplete_noop _).2 (Or.inr (Or.inl (by decide)))⟩

/-- C20: choosing a second operation right after a first gives the state
that choosing the second alone gives, for every state and all operations. -/
theorem reducer_chooseOperation_last_wins (s : CalculatorState) (o1 o2 : String) :
    (reducer s (.CHOOSE_OPERATION o1) >>= fun s1 => reducer s1 (.CHOOSE_OPERATION o2)) =
      reducer s (.CHOOSE_OPERATION o2) := by
  have hbind : ∀ (x : CalculatorState) (f : CalculatorState → Except JSError CalculatorState),
      ((Except.ok x : Except JSError CalculatorState) >>= f) = f x := fun _ _ => rfl
  cases hc : s.currentOperand.isNullish <;> cases hp : s.previousOperand.isNullish
  · have h1 : ∀ o, reducer s (.CHOOSE_OPERATION o) =
        .ok { s with previousOperand := .val (evaluate s), operation := .val o,
                     currentOperand := .null } := by
      intro o; simp [reducer, hc, hp]
    rw [h1 o1, h1 o2, hbind]
    simp [reducer, Field.isNullish]
  · have h1 : ∀ o, reducer s (.CHOOSE_OPERATION o) =
        .ok { s with operation := .val o, previousOperand := s.currentOperand,
                     currentOperand := .null } := by
      intro o; simp [reducer, hc, hp]
    rw [h1 o1, h1 o2, hbind]
    have hn : (Field.null : Field String).isNullish = true := rfl
    simp only [reducer, hn, hc, Bool.true_and, Bool.false_eq_true, if_false, if_true]
  · have h1 : ∀ o, reducer s (.CHOOSE_OPERATION o) = .ok { s with operation := .val o } := by
      intro o; simp [reducer, hc, hp]
    rw [h1 o1, h1 o2, hbind]
    simp [reducer, hc, hp]
  · have h1 : ∀ o, reducer s (.CHOOSE_OPERATION o) = .ok s := by
      intro o; simp [reducer, hc, hp]
    rw [h1 o1, h1 o2, hbind]
    exact h1 o2


/-! ## The evaluator on unparsable operands and on division by zero -/

/-- C15: whenever `parseFloat` of the previous or of the current operand is
NaN, `evaluate` returns the empty string, whatever the operation, and EVALUATE
on such a complete state stores `""` as the current operand; an absent
operand (`undefined` or `null`), the empty text and `"."` all parse to NaN. -/
theorem evaluate_unparsable (s : CalculatorState)
    (h : isNaN (parseFloat s.previousOperand) = true ∨
      isNaN (parseFloat s.currentOperand) = true) :
    evaluate s = "" ∧
      (s.operation.isNullish = false → s.currentOperand.isNullish = false →
        s.previousOperand.isNullish = false →
        reducer s .EVALUATE =
          .ok { currentOperand := .val "", previousOperand := .null, operation := .null,
                overwrite := .val true }) ∧
      (isNaN (parseFloat .undefined) = true ∧ isNaN (parseFloat .null) = true ∧
        isNaN (parseFloat (.val "")) = true ∧ isNaN (parseFloat (.val ".")) = true) := by
  have he : evaluate s = "" := by
    have hor : (isNaN (parseFloat s.previousOperand) || isNaN (parseFloat s.currentOperand))
        = true := by
      rcases h with h | h <;> simp [h]
    simp only [evaluate, hor, if_true]
  refine ⟨he, ?_, by decide, by decide, by decide, by decide⟩
  intro hop hc hp
  simp [reducer, hop, hc, hp, he]

/-- C15, at the complete state `. + 5`. -/
theorem evaluate_unparsable_witness :
    evaluate { previousOperand := .val ".", currentOperand := .val "5", operation := .val "+" }
        = "" ∧
      reducer { previousOperand := .val ".", currentOperand := .val "5", operation := .val "+" }
          .EVALUATE =
        .ok { currentOperand := .val "", previousOperand := .null, operation := .null,
              overwrite := .val true } :=
  have h := evaluate_unparsable
    { previousOperand := .val ".", currentOperand := .val "5", operation := .val "+" }
    (Or.inl (by decide))
  ⟨h.1, h.2.1 (by decide) (by decide) (by decide)⟩

/-- C16 as stated fails: `"5"` parses to a positive number, `"-0"` parses to
a zero, and `evaluate` of `5 ÷ -0` is `"-Infinity"`, not `"Infinity"`. -/
theorem evaluate_divide_by_negative_zero :
    (parseFloat (.val "5")).isPositive = true ∧ (parseFloat (.val "-0")).isZero = true ∧
      evaluate { previousOperand := .val "5", currentOperand := .val "-0", operation := .val "÷" }
        = "-Infinity" ∧
      "-Infinity" ≠ "Infinity" := by
  refine ⟨by decide!, by decide!, by decide!, by decide⟩

/-- C16, amended: for a previous operand that parses to a positive number,
`evaluate` with `"÷"` returns `"Infinity"` when the current operand parses to
positive zero and `"-Infinity"` when it parses to negative zero. -/
theorem evaluate_divide_by_zero (s : CalculatorState) (hop : s.operation = .val "÷")
    (hprev : (parseFloat s.previousOperand).isPositive = true) :
    ((parseFloat s.currentOperand).isSignedZero false = true → evaluate s = "Infinity") ∧
      ((parseFloat s.currentOperand).isSignedZero true = true → evaluate s = "-Infinity") := by
  have hne4 : (Field.val "÷" : Field String) ≠ .val "+" := by decide
  have hne5 : (Field.val "÷" : Field String) ≠ .val "-" := by decide
  have hne6 : (Field.val "÷" : Field String) ≠ .val "*" := by decide
  have key : ∀ sign, (parseFloat s.currentOperand).isSignedZero sign = true →
      evaluate s = (JSNumber.inf sign).toString := by
    intro sign hz
    simp only [evaluate, hop, if_neg hne4, if_neg hne5, if_neg hne6, if_true]
    cases hx : parseFloat s.previousOperand with
    | nan => rw [hx] at hprev; exact absurd hprev (by simp [JSNumber.isPositive])
    | inf a =>
      rw [hx] at hprev
      simp only [JSNumber.isPositive, Bool.not_eq_true'] at hprev
      subst hprev
      cases hy : parseFloat s.currentOperand with
      | nan => rw [hy] at hz; exact absurd hz (by simp [JSNumber.isSignedZero])
      | inf b => rw [hy] at hz; exact absurd hz (by simp [JSNumber.isSignedZero])
      | fin b m e =>
        rw [hy] at hz
        simp only [JSNumber.isSignedZero, Bool.and_eq_true, decide_eq_true_eq] at hz
        obtain ⟨hb, -⟩ := hz
        subst hb
        simp [isNaN, JSNumber.div]
    | fin a m1 e1 =>
      rw [hx] at hprev
      simp only [JSNumber.isPositive, Bool.and_eq_true, Bool.not_eq_true',
        decide_eq_true_eq] at hprev
      obtain ⟨ha, hm1⟩ := hprev
      subst ha
      cases hy : parseFloat s.currentOperand with
      | nan => rw [hy] at hz; exact absurd hz (by simp [JSNumber.isSignedZero])
      | inf b => rw [hy] at hz; exact absurd hz (by simp [JSNumber.isSignedZero])
      | fin b m e =>
        rw [hy] at hz
        simp only [JSNumber.isSignedZero, Bool.and_eq_true, decide_eq_true_eq] at hz
        obtain ⟨hb, hm⟩ := hz
        subst hb
        subst hm
        simp [isNaN, JSNumber.div, hm1]
  exact ⟨fun h => key false h, fun h => key true h⟩

/-- C16, amended, at `evaluate("5", "0", "÷")`. -/
theorem evaluate_divide_by_zero_witness :
    evaluate { previousOperand := .val "5", currentOperand := .val "0", operation := .val "÷" }
      = "Infinity" :=
  (evaluate_divide_by_zero
    { previousOperand := .val "5", currentOperand := .val "0", operation := .val "÷" } rfl
    (by decide!)).1 (by decide!)


/-! ## The overwrite flag -/

/-- C18 as stated fails: the state after `5`, `+`, `3`, EVALUATE is
reachable, CHOOSE_OPERATION is not EVALUATE, and it returns a state whose
overwrite flag is still true. -/
theorem reducer_chooseOperation_keeps_overwrite :
    Reachable { currentOperand := .val "8", previousOperand := .null, operation := .null,
                overwrite := .val true } ∧
      Action.CHOOSE_OPERATION "+" ≠ Action.EVALUATE ∧
      reducer { currentOperand := .val "8", previousOperand := .null, operation := .null,
                overwrite := .val true } (.CHOOSE_OPERATION "+") =
        .ok { currentOperand := .null, previousOperand := .val "8", operation := .val "+",
              overwrite := .val true } ∧
      (Field.val true).truthy = true := by
  refine ⟨?_, by decide, by decide, rfl⟩
  exact reachable_run Reachable.init
    [.ADD_DIGIT "5", .CHOOSE_OPERATION "+", .ADD_DIGIT "3", .EVALUATE] _ (by decide) (by decide!)

/-- The overwrite flag after a transition: not true after ADD_DIGIT, CLEAR
and DELETE_DIGIT, unchanged after CHOOSE_OPERATION. -/
theorem reducer_overwrite_cases (s s1 : CalculatorState) (a : Action)
    (hstep : reducer s a = .ok s1) :
    (a ≠ .EVALUATE → (∀ op, a ≠ .CHOOSE_OPERATION op) → s1.overwrite.truthy = false) ∧
      (∀ op, a = .CHOOSE_OPERATION op → s1.overwrite = s.overwrite) := by
  cases a with
  | ADD_DIGIT d =>
    refine ⟨fun _ _ => ?_, fun op h => by cases h⟩
    simp only [reducer] at hstep
    by_cases hov : s.overwrite.truthy = true
    · rw [if_pos hov] at hstep
      simp only [Except.ok.injEq] at hstep
      subst hstep
      rfl
    · rw [if_neg hov] at hstep
      have hov1 : s.overwrite.truthy = false := by simpa using hov
      by_cases hz : d = "0" ∧ s.currentOperand = .val "0"
      · rw [if_pos hz] at hstep
        simp only [Except.ok.injEq] at hstep
        subst hstep
        exact hov1
      · rw [if_neg hz] at hstep
        cases hinc : (if d = "." then includes s.currentOperand "." else .ok false) with
        | error e => rw [hinc] at hstep; exact absurd hstep (by simp [bind, Except.bind])
        | ok dup =>
          rw [hinc] at hstep
          simp only [bind, Except.bind] at hstep
          split_ifs at hstep
          all_goals simp only [Except.ok.injEq] at hstep
          all_goals subst hstep
          all_goals exact hov1
  | CHOOSE_OPERATION op =>
    refine ⟨fun _ h => absurd rfl (h op), fun _ _ => ?_⟩
    simp only [reducer] at hstep
    split_ifs at hstep
    all_goals simp only [Except.ok.injEq] at hstep
    all_goals subst hstep
    all_goals rfl
  | CLEAR =>
    refine ⟨fun _ _ => ?_, fun op h => by cases h⟩
    simp only [reducer, Except.ok.injEq] at hstep
    subst hstep
    rfl
  | DELETE_DIGIT =>
    refine ⟨fun _ _ => ?_, fun op h => by cases h⟩
    simp only [reducer] at hstep
    by_cases hov : s.overwrite.truthy = true
    · rw [if_pos hov] at hstep
      simp only [Except.ok.injEq] at hstep
      subst hstep
      rfl
    · rw [if_neg hov] at hstep
      have hov1 : s.overwrite.truthy = false := by simpa using hov
      cases hcur : s.currentOperand with
      | val u =>
        rw [hcur] at hstep
        simp only at hstep
        split_ifs at hstep
        all_goals simp only [Except.ok.injEq] at hstep
        all_goals subst hstep
        all_goals exact hov1
      | undefined =>
        rw [hcur] at hstep
        simp only [Except.ok.injEq] at hstep
        subst hstep
        exact hov1
      | null =>
        rw [hcur] at hstep
        simp only [Except.ok.injEq] at hstep
        subst hstep
        exact hov1
  | EVALUATE =>
    exact ⟨fun h => absurd rfl h, fun op h => by cases h⟩

/-- C18, amended: for every state (reachable or not) and every action other
than EVALUATE and CHOOSE_OPERATION, the overwrite flag of the state the
reducer returns is not true; CHOOSE_OPERATION returns a state with the
overwrite flag it was given. -/
theorem reducer_overwrite_after (s s1 : CalculatorState) (a : Action)
    (hstep : reducer s a = .ok s1) :
    (a ≠ .EVALUATE → (∀ op, a ≠ .CHOOSE_OPERATION op) → s1.overwrite.truthy = false) ∧
      (∀ op, a = .CHOOSE_OPERATION op → s1.overwrite = s.overwrite) :=
  reducer_overwrite_cases s s1 a hstep

/-- C18, amended, at the state after an evaluation: a digit returns a state
whose overwrite flag is not true. -/
theorem reducer_overwrite_after_witness :
    reducer { currentOperand := .val "8", previousOperand := .null, operation := .null,
              overwrite := .val true } (.ADD_DIGIT "7") =
        .ok { currentOperand := .val "7", previousOperand := .null, operation := .null,
              overwrite := .val false } ∧
      (Field.val false).truthy = false :=
  have hs : reducer { currentOperand := .val "8", previousOperand := .null, operation := .null,
                      overwrite := .val true } (.ADD_DIGIT "7") =
      .ok { currentOperand := .val "7", previousOperand := .null, operation := .null,
            overwrite := .val false } := by decide
  ⟨hs, (reducer_overwrite_after _ _ _ hs).1 (by decide) (fun op h => by cases h)⟩

/-- Invariant of the reducer: while the overwrite flag is true and the
current operand is present, the previous operand and the operation are
absent. -/
theorem reducer_preserves_resultAlone (s s1 : CalculatorState) (a : Action)
    (hstep : reducer s a = .ok s1)
    (ih : s.overwrite.truthy = true → s.currentOperand.isNullish = false →
      s.previousOperand.isNullish = true ∧ s.operation.isNullish = true)
    (ho : s1.overwrite.truthy = true) (hc : s1.currentOperand.isNullish = false) :
    s1.previousOperand.isNullish = true ∧ s1.operation.isNullish = true := by
  cases a with
  | EVALUATE =>
    simp only [reducer] at hstep
    split_ifs at hstep
    · simp only [Except.ok.injEq] at hstep
      subst hstep
      exact ih ho hc
    · simp only [Except.ok.injEq] at hstep
      subst hstep
      exact ⟨rfl, rfl⟩
  | CHOOSE_OPERATION op =>
    simp only [reducer] at hstep
    split_ifs at hstep with h1 h2 h3
    all_goals simp only [Except.ok.injEq] at hstep
    all_goals subst hstep
    · exact ih ho hc
    · exact absurd hc (by simp [h2])
    · exact absurd hc (by simp [Field.isNullish])
    · exact absurd hc (by simp [Field.isNullish])
  | ADD_DIGIT d =>
    have h := (reducer_overwrite_cases s s1 _ hstep).1 (by simp) (by simp)
    rw [h] at ho
    exact absurd ho (by simp)
  | CLEAR =>
    have h := (reducer_overwrite_cases s s1 _ hstep).1 (by simp) (by simp)
    rw [h] at ho
    exact absurd ho (by simp)
  | DELETE_DIGIT =>
    have h := (reducer_overwrite_cases s s1 _ hstep).1 (by simp) (by simp)
    rw [h] at ho
    exact absurd ho (by simp)

/-- In a reachable state whose overwrite flag is true and whose current
operand is present, the previous operand and the operation are absent. -/
theorem reachable_resultAlone (s : CalculatorState) (hr : Reachable s)
    (ho : s.overwrite.truthy = true) (hc : s.currentOperand.isNullish = false) :
    s.previousOperand.isNullish = true ∧ s.operation.isNullish = true := by
  induction hr with
  | init => exact absurd ho (by decide)
  | step _ _ hstep ih => exact reducer_preserves_resultAlone _ _ _ hstep ih ho hc

/-- C19: in every reachable state, when the overwrite flag is not true the
current operand is absent or a non-empty text of digits with at most one
`"."`; when the overwrite flag is true and the current operand is present,
the previous operand and the operation are absent, so that EVALUATE returns
the state unchanged, ADD_DIGIT replaces the current operand instead of
appending to it, and DELETE_DIGIT clears it instead of trimming it. -/
theorem reachable_invariant (s : CalculatorState) (hr : Reachable s) :
    (s.overwrite.truthy = false →
        s.currentOperand.isNullish = true ∨
          ∃ t, s.currentOperand = .val t ∧ t ≠ "" ∧ digitsAndOneDot t) ∧
      (s.overwrite.truthy = true → s.currentOperand.isNullish = false →
        s.previousOperand.isNullish = true ∧ s.operation.isNullish = true ∧
          reducer s .EVALUATE = .ok s ∧
          (∀ d, reducer s (.ADD_DIGIT d) =
            .ok { s with currentOperand := .val d, overwrite := .val false }) ∧
          reducer s .DELETE_DIGIT =
            .ok { s with overwrite := .val false, currentOperand := .null }) := by
  refine ⟨?_, ?_⟩
  · intro ho
    cases hc : s.currentOperand with
    | val t => exact Or.inr ⟨t, rfl, reachable_typedText s hr ho t hc⟩
    | undefined => exact Or.inl rfl
    | null => exact Or.inl rfl
  · intro ho hc
    obtain ⟨hp, hop⟩ := reachable_resultAlone s hr ho hc
    refine ⟨hp, hop, by simp [reducer, hop], fun d => by simp [reducer, ho], by simp [reducer, ho]⟩

/-- C19, at the state reached by `5`, `-`, `8`, EVALUATE, whose current
operand is the computed `"-3"`. -/
theorem reachable_invariant_witness :
    Reachable { currentOperand := .val "-3", previousOperand := .null, operation := .null,
                overwrite := .val true } ∧
      reducer { currentOperand := .val "-3", previousOperand := .null, operation := .null,
                overwrite := .val true } .EVALUATE =
        .ok { currentOperand := .val "-3", previousOperand := .null, operation := .null,
              overwrite := .val true } :=
  have hr : Reachable { currentOperand := .val "-3", previousOperand := .null,
                        operation := .null, overwrite := .val true } :=
    reachable_run Reachable.init
      [.ADD_DIGIT "5", .CHOOSE_OPERATION "-", .ADD_DIGIT "8", .EVALUATE] _ (by decide)
      (by decide!)
  ⟨hr, ((reachable_invariant _ hr).2 (by decide) (by decide)).2.2.1⟩


/-! ## The formatter -/

/-- A digit character is the character of its value. -/
theorem digitChar_of_isDigit (c : Char) (h : c.isDigit = true) :
    Nat.digitChar (c.toNat - 48) = c ∧ c.toNat - 48 < 10 := by
  simp only [Char.isDigit, Bool.and_eq_true, decide_eq_true_eq] at h
  obtain ⟨h1, h2⟩ := h
  have h3 : 48 ≤ c.toNat := h1
  have h4 : c.toNat ≤ 57 := h2
  have hc : c = Char.ofNat c.toNat := (Char.ofNat_toNat c).symm
  generalize c.toNat = n at hc h3 h4
  subst hc
  interval_cases n <;> exact ⟨by decide, by decide⟩

/-- The digits of the number read from a digit string that does not start
with `0` are the string itself, and the number is positive. -/
theorem toDigits_digitsValue (l : List Char) :
    (∀ c ∈ l, c.isDigit = true) → l ≠ [] → l.head? ≠ some '0' →
      Nat.toDigits 10 (digitsValue l) = l ∧ 0 < digitsValue l := by
  induction l using List.reverseRecOn with
  | nil => intro _ h; exact absurd rfl h
  | append_singleton init c ih =>
    intro hd _ hhead
    have hc : c.isDigit = true := hd c (by simp)
    obtain ⟨hdc, hlt⟩ := digitChar_of_isDigit c hc
    rw [digitsValue_append_singleton]
    by_cases hinit : init = []
    · subst hinit
      have hne : c ≠ '0' := by simpa using hhead
      have hpos : 0 < c.toNat - 48 := by
        rcases Nat.eq_zero_or_pos (c.toNat - 48) with h0 | h0
        · rw [h0] at hdc; exact absurd hdc.symm hne
        · exact h0
      have hz : digitsValue [] = 0 := rfl
      rw [hz, Nat.mul_zero, Nat.zero_add, toDigits_small _ hlt, hdc]
      exact ⟨rfl, hpos⟩
    · have hhead1 : init.head? ≠ some '0' := by
        obtain ⟨a, rest, rfl⟩ := List.exists_cons_of_ne_nil hinit
        simpa using hhead
      obtain ⟨ih1, ih2⟩ := ih (fun x hx => hd x (by simp [hx])) hinit hhead1
      have e1 : (10 * digitsValue init + (c.toNat - 48)) / 10 = digitsValue init := by omega
      have e2 : (10 * digitsValue init + (c.toNat - 48)) % 10 = c.toNat - 48 := by omega
      rw [toDigits_step _ (by omega), e1, e2, ih1, hdc]
      exact ⟨rfl, by omega⟩

/-- The grouping of a non-empty text, by its first character. -/
theorem groupDigits_cons (c : Char) (rest : List Char) :
    groupDigits (c :: rest) =
      if rest ≠ [] ∧ rest.length % 3 = 0 then c :: ',' :: groupDigits rest
      else c :: groupDigits rest := rfl

/-- Grouping left to right: three further digits at the end add a `,` and
the digits. -/
theorem groupDigits_append_three (p : List Char) (x y z : Char) (hp : p ≠ []) :
    groupDigits (p ++ [x, y, z]) = groupDigits p ++ ',' :: [x, y, z] := by
  induction p with
  | nil => exact absurd rfl hp
  | cons a p ih =>
    by_cases hp1 : p = []
    · subst hp1
      simp [groupDigits]
    · have ih1 := ih hp1
      have hlen : (p ++ [x, y, z]).length % 3 = p.length % 3 := by
        simp [List.length_append]
      have hne : p ++ [x, y, z] ≠ [] := by simp
      rw [List.cons_append, groupDigits_cons a (p ++ [x, y, z]), groupDigits_cons a p, hlen, ih1]
      by_cases hm : p.length % 3 = 0
      · rw [if_pos ⟨hne, hm⟩, if_pos ⟨hp1, hm⟩]; rfl
      · rw [if_neg (fun h => hm h.2), if_neg (fun h => hm h.2)]; rfl

/-- A text of at most three digits is grouped as itself. -/
theorem groupDigits_short (l : List Char) (h : l.length ≤ 3) : groupDigits l = l := by
  match l, h with
  | [], _ => rfl
  | [a], _ => simp [groupDigits]
  | [a, b], _ => simp [groupDigits]
  | [a, b, c], _ => simp [groupDigits]
  | _ :: _ :: _ :: _ :: _, h => simp at h

/-- A text of at most three digits is its own grouping in threes. -/
theorem thousandsGrouped_short (l : List Char) (h : l.length ≤ 3) :
    thousandsGrouped l = l := by
  match l, h with
  | [], _ => rfl
  | [a], _ => rfl
  | [a, b], _ => rfl
  | [a, b, c], _ => rfl
  | _ :: _ :: _ :: _ :: _, h => simp at h

/-- The left-to-right grouping of the formatter is the grouping in threes
counted from the right. -/
theorem groupDigits_eq_thousandsGrouped (l : List Char) :
    groupDigits l = thousandsGrouped l := by
  have key : ∀ n (l : List Char), l.length = n → groupDigits l = thousandsGrouped l := by
    intro n
    induction n using Nat.strong_induction_on with
    | _ n ih =>
      intro l hn
      by_cases h3 : l.length ≤ 3
      · rw [groupDigits_short l h3, thousandsGrouped_short l h3]
      · have hsplit : l = l.take (l.length - 3) ++ l.drop (l.length - 3) :=
          (List.take_append_drop _ l).symm
        have hdl : (l.drop (l.length - 3)).length = 3 := by
          rw [List.length_drop]; omega
        obtain ⟨x, y, z, hxyz⟩ := List.length_eq_three.mp hdl
        have hpl : (l.take (l.length - 3)).length = l.length - 3 := by
          rw [List.length_take]; omega
        have hpne : l.take (l.length - 3) ≠ [] := by
          intro h; rw [h] at hpl; simp at hpl; omega
        generalize l.take (l.length - 3) = p at hsplit hpl hpne
        rw [hxyz] at hsplit
        have ihp := ih p.length (by omega) p rfl
        rw [hsplit, groupDigits_append_three p x y z hpne, ihp]
        simp only [thousandsGrouped, List.reverse_append, List.reverse_cons, List.reverse_nil,
          List.nil_append, List.cons_append, List.singleton_append]
        obtain ⟨a, rest, hrev⟩ := List.exists_cons_of_ne_nil
          (fun h => hpne (List.reverse_eq_nil_iff.mp h) : p.reverse ≠ [])
        rw [hrev]
        simp [separateReversed]
  exact key l.length l rfl


/-- A digit character is not the decimal point. -/
theorem isDigit_ne_dot (c : Char) (h : c.isDigit = true) : c ≠ '.' :=
  fun hc => absurd (hc ▸ h) (by decide)

/-- Splitting a text without `.` gives the text as its only piece. -/
theorem splitDot_noDot (l : List Char) (h : ∀ c ∈ l, c ≠ '.') : splitDot l = (l, []) := by
  induction l with
  | nil => rfl
  | cons a l ih =>
    have ha : a ≠ '.' := h a (List.mem_cons_self a l)
    have ih1 := ih (fun c hc => h c (List.mem_cons_of_mem a hc))
    simp only [splitDot, if_neg ha, ih1]

/-- Splitting `ip.fp`, where neither part has a `.`, gives the two parts. -/
theorem splitDot_append (ip fp : List Char) (h1 : ∀ c ∈ ip, c ≠ '.')
    (h2 : ∀ c ∈ fp, c ≠ '.') : splitDot (ip ++ '.' :: fp) = (ip, [fp]) := by
  induction ip with
  | nil => simp only [List.nil_append, splitDot, if_true, splitDot_noDot fp h2]
  | cons a l ih =>
    have ha : a ≠ '.' := h1 a (List.mem_cons_self a l)
    have ih1 := ih (fun c hc => h1 c (List.mem_cons_of_mem a hc))
    have e : splitDot (a :: (l ++ '.' :: fp)) =
        (a :: (splitDot (l ++ '.' :: fp)).1, (splitDot (l ++ '.' :: fp)).2) := by
      simp only [splitDot, if_neg ha]
    rw [List.cons_append, e, ih1]

/-- White space is only dropped from a text that starts with it. -/
theorem dropWhile_whiteSpace_digit (c : Char) (rest : List Char) (h : c.isDigit = true) :
    (c :: rest).dropWhile isStrWhiteSpaceChar = c :: rest :=
  List.dropWhile_cons_of_neg (by simp [isDigit_not_whiteSpace c h])

/-- Trimming leaves a non-empty digit string as it is. -/
theorem trimWhiteSpace_digits (l : List Char) (hne : l ≠ [])
    (hd : ∀ c ∈ l, c.isDigit = true) : trimWhiteSpace l = l := by
  obtain ⟨c, rest, rfl⟩ := List.exists_cons_of_ne_nil hne
  have h1 := dropWhile_whiteSpace_digit c rest (hd c (List.mem_cons_self c rest))
  have hrne : (c :: rest).reverse ≠ [] := by simp
  obtain ⟨b, rest2, hrev⟩ := List.exists_cons_of_ne_nil hrne
  have hb : b.isDigit = true :=
    hd b (List.mem_reverse.mp (hrev ▸ List.mem_cons_self b rest2))
  simp only [trimWhiteSpace, h1, hrev, dropWhile_whiteSpace_digit b rest2 hb]
  rw [← hrev, List.reverse_reverse]

/-- A digit string is not a hexadecimal, octal or binary literal. -/
theorem nonDecimalLiteral_digits (l : List Char) (hd : ∀ c ∈ l, c.isDigit = true) :
    nonDecimalLiteral l = none := by
  unfold nonDecimalLiteral
  split
  · rename_i p d ds
    have hp : p.isDigit = true := hd p (by simp)
    have n1 : p ≠ 'x' := fun h => absurd (h ▸ hp) (by decide)
    have n2 : p ≠ 'X' := fun h => absurd (h ▸ hp) (by decide)
    have n3 : p ≠ 'o' := fun h => absurd (h ▸ hp) (by decide)
    have n4 : p ≠ 'O' := fun h => absurd (h ▸ hp) (by decide)
    have n5 : p ≠ 'b' := fun h => absurd (h ▸ hp) (by decide)
    have n6 : p ≠ 'B' := fun h => absurd (h ▸ hp) (by decide)
    simp [n1, n2, n3, n4, n5, n6]
  · rfl

/-- A non-empty digit string is a decimal literal with the value of its
digits. -/
theorem strUnsignedDecimal_digits (l : List Char) (hne : l ≠ [])
    (hd : ∀ c ∈ l, c.isDigit = true) :
    strUnsignedDecimal l = some (.finite false (digitsValue l) 1) := by
  have hinf : l ≠ "Infinity".data := by
    intro h
    have hI : 'I' ∈ l := by rw [h]; decide
    exact absurd (hd 'I' hI) (by decide)
  have htake : l.takeWhile Char.isDigit = l := List.takeWhile_eq_self_iff.mpr hd
  have hdrop : l.dropWhile Char.isDigit = [] := List.dropWhile_eq_nil_iff.mpr hd
  simp only [strUnsignedDecimal, if_neg hinf, htake, hdrop, exponentWhole, IntlValue.decimal]
  simp [hne]

/-- A non-empty digit string has the value of its digits. -/
theorem stringIntlMV_digits (l : List Char) (hne : l ≠ [])
    (hd : ∀ c ∈ l, c.isDigit = true) :
    stringIntlMV (String.mk l) = .finite false (digitsValue l) 1 := by
  simp only [stringIntlMV, trimWhiteSpace_digits l hne hd, if_neg hne,
    nonDecimalLiteral_digits l hd]
  obtain ⟨c, rest, rfl⟩ := List.exists_cons_of_ne_nil hne
  have hc : c.isDigit = true := hd c (List.mem_cons_self c rest)
  have hplus : c ≠ '+' := fun h => absurd (h ▸ hc) (by decide)
  have hminus : c ≠ '-' := fun h => absurd (h ▸ hc) (by decide)
  split
  · rename_i heq; simp only [List.cons.injEq] at heq; exact absurd heq.1 hplus
  · rename_i heq; simp only [List.cons.injEq] at heq; exact absurd heq.1 hminus
  · rw [strUnsignedDecimal_digits _ hne hd]; rfl

/-- Rounding is at least the quotient. -/
theorem le_roundHalfEven (N D : Nat) : N / D ≤ roundHalfEven N D := by
  simp only [roundHalfEven]
  split_ifs <;> omega

/-- A positive natural number does not convert to a zero. -/
theorem roundRatio_nat_ne_zero (n : Nat) (hn : 0 < n) (neg : Bool) (e : Int) :
    roundRatio false n 1 ≠ .fin neg 0 e := by
  obtain ⟨h1, h2⟩ := floorLog2_spec n hn
  have hlog := ilog2Ratio_mul n 1 hn Nat.one_pos
  rw [mul_one] at hlog
  have hq : 0 < roundHalfEven (scale n 1 (max ((floorLog2 n : Int) - 52) (-1074))).1
      (scale n 1 (max ((floorLog2 n : Int) - 52) (-1074))).2 := by
    refine lt_of_lt_of_le ?_ (le_roundHalfEven _ _)
    have he : max ((floorLog2 n : Int) - 52) (-1074) = (floorLog2 n : Int) - 52 := by omega
    rw [he]
    simp only [scale]
    split_ifs with h
    · rw [one_mul]
      apply Nat.div_pos _ (by positivity)
      refine le_trans ?_ h1
      exact Nat.pow_le_pow_right (by norm_num) (by omega)
    · rw [Nat.div_one]
      exact Nat.mul_pos hn (by positivity)
  intro hcon
  simp only [roundRatio, if_neg (Nat.pos_iff_ne_zero.mp hn), hlog] at hcon
  split_ifs at hcon with c1 c2
  · simp only [JSNumber.fin.injEq] at hcon
    exact absurd hcon.2.1 (by positivity)
  · simp only [JSNumber.fin.injEq] at hcon
    omega

/-- The formatter takes a non-empty digit string whose value does not
convert to the Number `Infinity` at its exact value. -/
theorem toIntlMathematicalValue_digits (l : List Char) (hne : l ≠ [])
    (hd : ∀ c ∈ l, c.isDigit = true)
    (hfin : roundRatio false (digitsValue l) 1 ≠ .inf false) :
    toIntlMathematicalValue (String.mk l) = .finite false (digitsValue l) 1 := by
  simp only [toIntlMathematicalValue, stringIntlMV_digits l hne hd]
  cases hr : roundRatio false (digitsValue l) 1 with
  | nan => rfl
  | inf s =>
    have hs : s = false := by
      by_cases h0 : digitsValue l = 0
      · rw [h0] at hr; simp [roundRatio] at hr
      · simp only [roundRatio, if_neg h0] at hr
        split_ifs at hr <;> simp_all
    exact absurd (hs ▸ hr) hfin
  | fin s m e =>
    simp only
    split_ifs with hm
    · by_cases h0 : digitsValue l = 0
      · rw [h0]
      · subst hm
        exact absurd hr (roundRatio_nat_ne_zero _ (Nat.pos_of_ne_zero h0) s e)
    · rfl

/-- The formatter writes a natural number as its grouped digits. -/
theorem format_nat (n : Nat) :
    (IntlValue.finite false n 1).format = String.mk (groupDigits (Nat.toDigits 10 n)) := by
  have e : (2 * n + 1) / (2 * 1) = n := by omega
  simp only [IntlValue.format, e, Bool.false_eq_true, if_false]


/-- The number read from a digit string is below `10` to the number of
digits. -/
theorem digitsValue_lt (l : List Char) (hd : ∀ c ∈ l, c.isDigit = true) :
    digitsValue l < 10 ^ l.length := by
  induction l using List.reverseRecOn with
  | nil => simp [digitsValue]
  | append_singleton init c ih =>
    have ih1 := ih (fun x hx => hd x (by simp [hx]))
    obtain ⟨-, hlt⟩ := digitChar_of_isDigit c (hd c (by simp))
    rw [digitsValue_append_singleton, List.length_append, List.length_singleton, pow_succ]
    omega

/-- A natural number below `2^1023` converts to a finite Number. -/
theorem roundRatio_nat_finite (n : Nat) (hn : n < 2 ^ 1023) (neg : Bool) :
    roundRatio false n 1 ≠ .inf neg := by
  by_cases h0 : n = 0
  · subst h0; simp [roundRatio]
  have hpos : 0 < n := Nat.pos_of_ne_zero h0
  obtain ⟨h1, h2⟩ := floorLog2_spec n hpos
  have hL : floorLog2 n < 1023 :=
    (Nat.pow_lt_pow_iff_right (by norm_num : 1 < 2)).mp (lt_of_le_of_lt h1 hn)
  have hlog := ilog2Ratio_mul n 1 hpos Nat.one_pos
  rw [mul_one] at hlog
  intro hcon
  simp only [roundRatio, if_neg h0, hlog] at hcon
  split_ifs at hcon with c1 c2 c3 <;> omega

/-- A digit string of at most 307 digits converts to a finite Number. -/
theorem digits_finite (l : List Char) (hd : ∀ c ∈ l, c.isDigit = true)
    (hlen : l.length ≤ 307) : roundRatio false (digitsValue l) 1 ≠ .inf false := by
  apply roundRatio_nat_finite
  have h1 := digitsValue_lt l hd
  have h2 : 10 ^ l.length ≤ 10 ^ 307 := Nat.pow_le_pow_right (by norm_num) hlen
  have h3 : 10 ^ 307 < 2 ^ 1023 := by decide!
  omega

/-- The integer formatter on a digit string without leading zeros whose
value converts to a finite Number: the digits grouped in threes. -/
theorem integerFormatter_digits (ip : List Char) (hip : isIntegerPart ip)
    (hfin : roundRatio false (digitsValue ip) 1 ≠ .inf false) :
    INTEGER_FORMATTER (String.mk ip) = String.mk (thousandsGrouped ip) := by
  obtain ⟨hne, hd, hlead⟩ := hip
  have hdig : Nat.toDigits 10 (digitsValue ip) = ip := by
    rcases hlead with h | h
    · subst h; decide
    · exact (toDigits_digitsValue ip hd hne h).1
  rw [INTEGER_FORMATTER, toIntlMathematicalValue_digits ip hne hd hfin, format_nat, hdig,
    groupDigits_eq_thousandsGrouped]

/-- C17 as stated fails: the text `2` followed by 308 zeros is a non-empty
digit string without leading zeros, and `formatOperand` returns `"∞"` for
it, not its digits grouped in threes. -/
theorem formatOperand_overflow :
    isIntegerPart ('2' :: List.replicate 308 '0') ∧
      formatOperand (.val (String.mk ('2' :: List.replicate 308 '0'))) = .val "∞" ∧
      "∞" ≠ String.mk (thousandsGrouped ('2' :: List.replicate 308 '0')) := by
  refine ⟨by decide!, by decide!, by decide!⟩

/-- C17, amended: `formatOperand` of an absent operand is absent; for an
operand text made of a non-empty digit string without leading zeros whose
value converts to a finite Number, optionally followed by `"."` and a
possibly empty digit string, `formatOperand` returns the integer part with a
`","` between every group of three digits counted from the right, followed,
when the text has a `"."`, by `"."` and the fractional digits verbatim; so
`"1234567"` gives `"1,234,567"`, `"1234567.5"` gives `"1,234,567.5"` and
`"12."` gives `"12."`. -/
theorem formatOperand_grouped (ip fp : List Char) (hip : isIntegerPart ip)
    (hfp : ∀ c ∈ fp, c.isDigit = true)
    (hfin : roundRatio false (digitsValue ip) 1 ≠ .inf false) :
    formatOperand (.val (String.mk ip)) = .val (String.mk (thousandsGrouped ip)) ∧
      formatOperand (.val (String.mk (ip ++ '.' :: fp))) =
        .val (String.mk (thousandsGrouped ip ++ '.' :: fp)) ∧
      formatOperand .undefined = .undefined ∧ formatOperand .null = .undefined ∧
      formatOperand (.val "1234567") = .val "1,234,567" ∧
      formatOperand (.val "1234567.5") = .val "1,234,567.5" ∧
      formatOperand (.val "12.") = .val "12." := by
  have hfmt := integerFormatter_digits ip hip hfin
  have hnd1 : ∀ c ∈ ip, c ≠ '.' := fun c hc => isDigit_ne_dot c (hip.2.1 c hc)
  have hnd2 : ∀ c ∈ fp, c ≠ '.' := fun c hc => isDigit_ne_dot c (hfp c hc)
  refine ⟨?_, ?_, rfl, rfl, by decide!, by decide!, by decide!⟩
  · simp only [formatOperand, splitDot_noDot ip hnd1, hfmt]
  · simp only [formatOperand, splitDot_append ip fp hnd1 hnd2, hfmt]
    congr 1
    apply String.ext
    simp [String.data_append]

/-- C17, amended, at the integer part `"1234567"` and the fraction `"5"`. -/
theorem formatOperand_grouped_witness :
    formatOperand (.val (String.mk ("1234567".data ++ '.' :: "5".data))) =
      .val (String.mk (thousandsGrouped "1234567".data ++ '.' :: "5".data)) :=
  (formatOperand_grouped "1234567".data "5".data (by decide) (by decide) (by decide!)).2.1

end Calculator
